import Mathlib

/-!
Shallow embedding of the build-signal listener and critical-path analyzer
(`app/buck2_build_api/src/actions/build_listener.rs`).

Durations are modelled as natural numbers of microseconds: Rust `Duration`
values are non-negative, `saturating_sub` becomes truncated `Nat`
subtraction, and addition cannot overflow on `Nat`.  `HashMap` is modelled
as an association list whose iteration order is the list order; the Rust
iterator `max_by_key` returns the last maximal element, which `maxByKeyLast`
mirrors.  Identifiers of target labels, transitive-set projection keys and
span ids are modelled as `Nat`.
-/

namespace BuildListener

/-- Span identifier (`buck2_events::span::SpanId`), opaque in this module. -/
abbrev SpanId := Nat

/-- `NodeDuration` from the source: `user` and `total` wall time, in
microseconds. -/
structure NodeDuration where
  user : Nat
  total : Nat
deriving DecidableEq

/-- `NodeDuration::critical_path_duration`: the duration used for the
critical path computation, currently `user`. -/
def NodeDuration.critical_path_duration (d : NodeDuration) : Nat :=
  d.user

/-- `NodeDuration::zero`. -/
def NodeDuration.zero : NodeDuration :=
  { user := 0, total := 0 }

/-- `BaseDeferredKey`: owner of an action key. -/
inductive BaseDeferredKey where
  | targetLabel (t : Nat)
  | anonTarget (t : Nat)
  | bxlLabel (t : Nat)
deriving DecidableEq

/-- `BaseDeferredKey::unpack_target_label`. -/
def BaseDeferredKey.unpack_target_label : BaseDeferredKey → Option Nat
  | .targetLabel t => some t
  | .anonTarget _ => none
  | .bxlLabel _ => none

/-- `ActionKey`: identity of a concrete action execution, with its owner. -/
structure ActionKey where
  owner : BaseDeferredKey
  id : Nat
deriving DecidableEq

/-- An artifact; `action_key` is `none` for source artifacts. -/
structure Artifact where
  actionKey : Option ActionKey
deriving DecidableEq

/-- `ArtifactGroup`: either a single artifact or a transitive-set
projection. -/
inductive ArtifactGroup where
  | artifact (a : Artifact)
  | transitiveSetProjection (key : Nat)
deriving DecidableEq

/-- Error values surfaced through `anyhow::Result` in the embedded code. -/
inductive Err where
  | inputsFailed
  | duplicateVertex
deriving DecidableEq

/-- Decidable equality for `Except`, needed to derive equality on the
structures below. -/
def exceptDecEq {ε α : Type} [DecidableEq ε] [DecidableEq α] :
    DecidableEq (Except ε α)
  | .error a, .error b =>
    if h : a = b then .isTrue (by rw [h]) else .isFalse (by simp [h])
  | .error _, .ok _ => .isFalse (by simp)
  | .ok _, .error _ => .isFalse (by simp)
  | .ok a, .ok b =>
    if h : a = b then .isTrue (by rw [h]) else .isFalse (by simp [h])

instance {ε α : Type} [DecidableEq ε] [DecidableEq α] :
    DecidableEq (Except ε α) := exceptDecEq

/-- `RegisteredAction`: key, category/identifier used for the wire report,
and its declared inputs (`inputs()` is fallible in the source). -/
structure RegisteredAction where
  key : ActionKey
  category : String
  identifier : Option String
  inputsRes : Except Err (List ArtifactGroup)
deriving DecidableEq

/-- `RegisteredAction::owner`, which is the owner of the action's key. -/
def RegisteredAction.owner (a : RegisteredAction) : BaseDeferredKey :=
  a.key.owner

/-- `NodeKey`: identity of a DAG vertex. -/
inductive NodeKey where
  | actionKey (k : ActionKey)
  | transitiveSetProjection (k : Nat)
  | analysis (label : Nat)
deriving DecidableEq

instance : Inhabited NodeKey := ⟨NodeKey.analysis 0⟩

/-- `NodeData`: payload stored with each vertex. -/
structure NodeData where
  action : Option RegisteredAction
  duration : NodeDuration
  span_id : Option SpanId
deriving DecidableEq

instance : Inhabited NodeData :=
  ⟨{ action := none, duration := NodeDuration.zero, span_id := none }⟩

/-- `CriticalPathNode`: cumulative duration, payload and predecessor
pointer, generic exactly like the source. -/
structure CriticalPathNode (TKey TValue : Type) where
  duration : Nat
  value : TValue
  prev : Option TKey
deriving DecidableEq

/-! ### Association-list model of `HashMap` -/

/-- Lookup in an association list (`HashMap::get`). -/
def mapGet {K V : Type} [DecidableEq K] (m : List (K × V)) (k : K) : Option V :=
  (m.find? (fun p => p.1 = k)).map (·.2)

/-- Insertion into an association list (`HashMap::insert`): replaces the
existing binding if present, otherwise appends. -/
def mapInsert {K V : Type} [DecidableEq K] (m : List (K × V)) (k : K) (v : V) :
    List (K × V) :=
  if (m.find? (fun p => p.1 = k)).isSome then
    m.map (fun p => if p.1 = k then (k, v) else p)
  else
    m ++ [(k, v)]

/-- Worker of `dedupFirst`, carrying the set of elements already seen. -/
def dedupFirstAux {α : Type} [DecidableEq α] (seen : List α) :
    List α → List α
  | [] => []
  | x :: xs =>
    if x ∈ seen then dedupFirstAux seen xs
    else x :: dedupFirstAux (x :: seen) xs

/-- `itertools::unique`: keep the first occurrence of each element,
preserving order. -/
def dedupFirst {α : Type} [DecidableEq α] (l : List α) : List α :=
  dedupFirstAux [] l

/-- `Iterator::max_by_key`: the maximum by `f`; when several elements are
equally maximal the last one is returned. -/
def maxByKeyLast {α : Type} (f : α → Nat) : List α → Option α
  | [] => none
  | x :: xs =>
    match maxByKeyLast f xs with
    | none => some x
    | some y => if f x ≤ f y then some y else some x

/-! ### Default backend -/

/-- `DefaultBackend`: online critical-path tracking by per-node predecessor
pointer. -/
structure DefaultBackend where
  predecessors : List (NodeKey × CriticalPathNode NodeKey NodeData)
  num_nodes : Nat
  num_edges : Nat
deriving DecidableEq

/-- `DefaultBackend::new`. -/
def DefaultBackend.new : DefaultBackend :=
  { predecessors := [], num_nodes := 0, num_edges := 0 }

/-- The candidate scan of `DefaultBackend::process_node` (the
`unique().filter_map(..)` stage): each deduplicated dep present in the
predecessor map, paired with its cumulative duration, in dep order. -/
def processNodeCandidates (b : DefaultBackend) (dep_keys : List NodeKey) :
    List (NodeKey × Nat) :=
  (dedupFirst dep_keys).filterMap (fun node_key =>
    (mapGet b.predecessors node_key).map (fun node_data =>
      (node_key, node_data.duration)))

/-- `DefaultBackend::process_node`: deduplicate the deps, count one edge per
unique dep (the `num_edges += 1` inside the `filter_map` fires for every
unique dep, present or not), pick the dep already present in the map with
the maximal cumulative duration (the last one on ties, per `max_by_key`),
and insert the node with cumulative duration
`ancestor + duration.critical_path_duration` (or just the node's own
duration when no dep is present). -/
def DefaultBackend.process_node (b : DefaultBackend) (key : NodeKey)
    (value : Option RegisteredAction) (duration : NodeDuration)
    (dep_keys : List NodeKey) (span_id : Option SpanId) : DefaultBackend :=
  { predecessors := mapInsert b.predecessors key
      (match maxByKeyLast (fun d => d.2) (processNodeCandidates b dep_keys) with
        | some p =>
          { prev := some p.1,
            value := { action := value, duration := duration,
                       span_id := span_id },
            duration := p.2 + duration.critical_path_duration }
        | none =>
          { prev := none,
            value := { action := value, duration := duration,
                       span_id := span_id },
            duration := duration.critical_path_duration }),
    num_nodes := b.num_nodes + 1,
    num_edges := b.num_edges + (dedupFirst dep_keys).length }

/-! ### Critical path extraction (`extract_critical_path`) -/

/-- The `itertools::unfold` walk inside `extract_critical_path`: starting
from the terminal key, emit `(key, value, cumulative_duration)` and follow
`prev` pointers; stop when the pointer is `none` or the key is absent.  The
Rust loop has no fuel: it simply never terminates on a cyclic `prev` chain,
which cannot be produced without violating the producer contract; `fuel`
makes the function total and is chosen large enough that the result agrees
with the source on all acyclic chains. -/
def cpWalk {TKey TValue : Type} [DecidableEq TKey]
    (m : List (TKey × CriticalPathNode TKey TValue)) :
    Nat → Option TKey → List (TKey × TValue × Nat)
  | 0, _ => []
  | _, none => []
  | fuel + 1, some k =>
    match mapGet m k with
    | none => []
    | some node => (k, node.value, node.duration) :: cpWalk m fuel node.prev

/-- Take differences of adjacent cumulative durations (the in-place loop
`path[i].2 = path[i].2.saturating_sub(path[i-1].2)` run from the back):
the first entry keeps its cumulative duration, every later entry gets the
saturating difference with its predecessor's cumulative duration. -/
def diffAux {TKey TValue : Type} (prev : Nat) :
    List (TKey × TValue × Nat) → List (TKey × TValue × Nat)
  | [] => []
  | (k, v, c) :: rest => (k, v, c - prev) :: diffAux c rest

/-- Adjacent-difference pass over the reversed path. -/
def diffAdjacent {TKey TValue : Type} :
    List (TKey × TValue × Nat) → List (TKey × TValue × Nat)
  | [] => []
  | (k, v, c) :: rest => (k, v, c) :: diffAux c rest

/-- `extract_critical_path`: pick the entry with the maximal cumulative
duration as terminal, walk the `prev` chain, reverse, and convert
cumulative durations to per-node durations. -/
def extract_critical_path {TKey TValue : Type} [DecidableEq TKey]
    (m : List (TKey × CriticalPathNode TKey TValue)) :
    List (TKey × TValue × Nat) :=
  diffAdjacent
    (cpWalk m (m.length + 1)
      ((maxByKeyLast (fun p => p.2.duration) m).map (fun q => q.1))).reverse

/-- `BuildInfo`: result of `finish`. -/
structure BuildInfo where
  critical_path : List (NodeKey × NodeData × Option Nat)
  num_nodes : Nat
  num_edges : Nat
deriving DecidableEq

/-- `DefaultBackend::finish`: extract the critical path and drop the
per-node durations, reporting no potential improvement. -/
def DefaultBackend.finish (b : DefaultBackend) : Except Err BuildInfo :=
  .ok
    { critical_path :=
        (extract_critical_path b.predecessors).map (fun e => (e.1, e.2.1, none)),
      num_nodes := b.num_nodes,
      num_edges := b.num_edges }

/-! ### Longest-path backend -/

/-- Modelled from the spec: `GraphBuilder` from `buck2_critical_path` is not
under `src/`; per the spec it "assigns dense integer vertex ids to
`NodeKey`s and stores `NodeData` in parallel", `push` "appends one vertex
with its out-edge list" and a duplicate vertex is a `ContractViolation`
(spec section 7). -/
structure GraphBuilder where
  vertices : List (NodeKey × List NodeKey × NodeData)
deriving DecidableEq

/-- Modelled from the spec: `GraphBuilder::new`. -/
def GraphBuilder.new : GraphBuilder :=
  { vertices := [] }

/-- Modelled from the spec: `GraphBuilder::push` appends one vertex with its
out-edge list and fails on a duplicate vertex. -/
def GraphBuilder.push (b : GraphBuilder) (key : NodeKey) (deps : List NodeKey)
    (data : NodeData) : Except Err GraphBuilder :=
  if b.vertices.any (fun v => v.1 = key) then
    .error .duplicateVertex
  else
    .ok { vertices := b.vertices ++ [(key, deps, data)] }

/-- `VisibilityEdge`: a top-level analysis and the artifacts it reveals. -/
structure VisibilityEdge where
  node : NodeKey
  makes_visible : List NodeKey
deriving DecidableEq

/-- `LongestPathGraphBackend`: graph builder (or the first construction
error) plus the recorded visibility edges. -/
structure LongestPathGraphBackend where
  builder : Except Err GraphBuilder
  top_level_analysis : List VisibilityEdge
deriving DecidableEq

/-- `LongestPathGraphBackend::new`. -/
def LongestPathGraphBackend.new : LongestPathGraphBackend :=
  { builder := .ok GraphBuilder.new, top_level_analysis := [] }

/-- `LongestPathGraphBackend::process_node`: a no-op once the builder is in
the error state; otherwise push the vertex, storing the first error. -/
def LongestPathGraphBackend.process_node (b : LongestPathGraphBackend)
    (key : NodeKey) (action : Option RegisteredAction) (duration : NodeDuration)
    (dep_keys : List NodeKey) (span_id : Option SpanId) :
    LongestPathGraphBackend :=
  match b.builder with
  | .error _ => b
  | .ok builder =>
    match builder.push key dep_keys
        { action := action, duration := duration, span_id := span_id } with
    | .ok builder => { b with builder := .ok builder }
    | .error e => { b with builder := .error e }

/-- `LongestPathGraphBackend::process_top_level_target`: record a
visibility edge. -/
def LongestPathGraphBackend.process_top_level_target
    (b : LongestPathGraphBackend) (analysis : NodeKey)
    (artifacts : List NodeKey) : LongestPathGraphBackend :=
  { b with top_level_analysis :=
      b.top_level_analysis ++ [{ node := analysis, makes_visible := artifacts }] }

/-- Modelled from the spec: the materialized `(graph, keys, data)` returned
by `GraphBuilder::finish` (`buck2_critical_path`, not under `src/`).
Vertex ids are the dense insertion indices; an out-edge list per vertex
resolves dep keys to vertex ids, dropping keys that were never pushed
(spec section 7, `SoftSkip`; forward references resolve because the lookup
happens over the final key table). -/
structure MaterializedGraph where
  keys : List NodeKey
  edgesList : List (List Nat)
deriving DecidableEq

/-- Modelled from the spec: the key-to-vertex-id lookup of the materialized
key table (`keys.get`). -/
def keyIndex (keys : List NodeKey) (k : NodeKey) : Option Nat :=
  keys.indexOf? k

/-- Modelled from the spec: materialize the graph from the builder. -/
def GraphBuilder.finish (b : GraphBuilder) :
    MaterializedGraph × List NodeData :=
  let keys := b.vertices.map (·.1)
  ({ keys := keys,
     edgesList := b.vertices.map (fun v => v.2.1.filterMap (keyIndex keys)) },
   b.vertices.map (fun v => v.2.2))

/-- Out-edges of a vertex (`graph.iter_edges`). -/
def MaterializedGraph.edgesOf (g : MaterializedGraph) (i : Nat) : List Nat :=
  g.edgesList.getD i []

/-- The inner `while let Some(i) = queue.pop()` loop of the first-analysis
propagation in `LongestPathGraphBackend::finish`: pop a vertex, skip it if
its slot is already assigned or if it is an `Analysis` vertex, otherwise
assign it the gating analysis vertex and push its out-edges.  The queue is a
Rust `Vec` popped from the back, modelled as a head stack: `extend` pushes
the edges so that the last one is popped first.  The Rust loop terminates
because each vertex is assigned at most once; `fuel` makes the model total
and the invariants below hold for every fuel. -/
def visitLoop (g : MaterializedGraph) (analysis : Nat) :
    Nat → List Nat → List (Option Nat) → List (Option Nat)
  | 0, _, fa => fa
  | _ + 1, [], fa => fa
  | fuel + 1, i :: queue, fa =>
    if (fa.getD i none).isSome then
      visitLoop g analysis fuel queue fa
    else
      match g.keys.get? i with
      | some (NodeKey.analysis _) => visitLoop g analysis fuel queue fa
      | some (NodeKey.actionKey _) | some (NodeKey.transitiveSetProjection _) =>
        visitLoop g analysis fuel ((g.edgesOf i).reverse ++ queue)
          (fa.set i (some analysis))
      | none =>
        -- Vertex ids always index the key table in the source; unreachable.
        visitLoop g analysis fuel queue fa

/-- The `for artifact in artifacts` loop: seed the queue with each revealed
artifact that is present in the graph and drain it. -/
def visitArtifacts (g : MaterializedGraph) (analysis : Nat) (fuel : Nat)
    (artifacts : List NodeKey) (fa : List (Option Nat)) : List (Option Nat) :=
  artifacts.foldl (fun fa artifact =>
    match keyIndex g.keys artifact with
    | none => fa
    | some a => visitLoop g analysis fuel [a] fa) fa

/-- The `for visibility in &self.top_level_analysis` loop: skip visibility
edges whose analysis vertex is absent, otherwise propagate from each
revealed artifact. -/
def propagateVisibility (g : MaterializedGraph) (fuel : Nat)
    (visibilities : List VisibilityEdge) (fa : List (Option Nat)) :
    List (Option Nat) :=
  visibilities.foldl (fun fa visibility =>
    match keyIndex g.keys visibility.node with
    | none => fa
    | some analysis => visitArtifacts g analysis fuel visibility.makes_visible fa) fa

/-- Modelled from the spec: `graph.add_edges(&first_analysis)`
(`buck2_critical_path`, not under `src/`): "for every vertex whose
`first_analysis` is set, add a synthetic edge from that vertex to its
gating analysis" (spec section 4.5 step 3). -/
def addFirstAnalysisEdges (edgesList : List (List Nat))
    (fa : List (Option Nat)) : List (List Nat) :=
  (List.range edgesList.length).map (fun i =>
    edgesList.getD i [] ++ (fa.getD i none).toList)

/-- Fuel that upper-bounds the number of queue pops the propagation can
perform: every pop either consumes a seed artifact or an element pushed by
one of the at most `keys.length` assignments. -/
def visitFuel (g : MaterializedGraph) (visibilities : List VisibilityEdge) : Nat :=
  (visibilities.map (fun v => v.makes_visible.length)).sum +
    (g.edgesList.map (·.length)).sum + g.keys.length + 1

/-- Total number of edges of a materialized graph (`graph.edges_count`). -/
def MaterializedGraph.edgesCount (g : MaterializedGraph) : Nat :=
  (g.edgesList.map (·.length)).sum

/-- Interface of the external `compute_critical_path_potentials` routine
(its internals are out of scope per the spec): from the augmented graph and
per-vertex durations it returns the critical path as `(cp_index, vertex_id)`
pairs from root to terminal, the critical path cost, and the replacement
durations indexed by `cp_index`. -/
abbrev ComputeCriticalPathPotentials :=
  MaterializedGraph → List Nat → Except Err (List (Nat × Nat) × Nat × List Nat)

/-- `LongestPathGraphBackend::finish`: surface a stored construction error;
otherwise materialize the graph, run the first-analysis propagation, add
the synthetic visibility edges, project durations to microseconds, call the
external longest-path routine and assemble the critical path with potential
improvements.  In this `Nat` model the `as_micros().try_into()` conversion
cannot overflow, so its error branch is not representable. -/
def LongestPathGraphBackend.finish (compute : ComputeCriticalPathPotentials)
    (b : LongestPathGraphBackend) : Except Err BuildInfo := do
  let builder ← b.builder
  let (g, data) := builder.finish
  let first_analysis :=
    propagateVisibility g (visitFuel g b.top_level_analysis)
      b.top_level_analysis (List.replicate g.keys.length none)
  let g2 : MaterializedGraph :=
    { keys := g.keys, edgesList := addFirstAnalysisEdges g.edgesList first_analysis }
  let durations := data.map (fun d => d.duration.critical_path_duration)
  let (critical_path, critical_path_cost, replacement_durations) ← compute g2 durations
  let critical_path := critical_path.map (fun e =>
    (g.keys.getD e.2 default, data.getD e.2 default,
      some (critical_path_cost - replacement_durations.getD e.1 0)))
  .ok
    { critical_path := critical_path,
      num_nodes := g2.keys.length,
      num_edges := g2.edgesCount }

/-! ### Signals and the receiver loop -/

/-- `ConfiguredTargetNode`, reduced to what the receiver uses: the labels of
its direct deps (`node.deps().map(|d| d.label())`). -/
structure ConfiguredTargetNode where
  deps : List Nat
deriving DecidableEq

/-- `ActionExecutionSignal`. -/
structure ActionExecutionSignal where
  action : RegisteredAction
  duration : NodeDuration
  span_id : Option SpanId
deriving DecidableEq

/-- `AnalysisSignal`. -/
structure AnalysisSignal where
  label : Nat
  node : ConfiguredTargetNode
  duration : NodeDuration
  span_id : Option SpanId
deriving DecidableEq

/-- `TransitiveSetComputationSignal`.  The source stores `artifacts` and
`set_deps` as hash sets iterated in unspecified order; the model fixes a
list order. -/
structure TransitiveSetComputationSignal where
  key : Nat
  artifacts : List ActionKey
  set_deps : List Nat
deriving DecidableEq

/-- `ActionRedirectionSignal`. -/
structure ActionRedirectionSignal where
  key : ActionKey
  dest : ActionKey
deriving DecidableEq

/-- `TopLevelTargetSignal`. -/
structure TopLevelTargetSignal where
  label : Nat
  artifacts : List ArtifactGroup
deriving DecidableEq

/-- `BuildSignal`: the six variants placed on the channel. -/
inductive BuildSignal where
  | actionExecution (s : ActionExecutionSignal)
  | transitiveSetComputation (s : TransitiveSetComputationSignal)
  | actionRedirection (s : ActionRedirectionSignal)
  | analysis (s : AnalysisSignal)
  | topLevelTarget (s : TopLevelTargetSignal)
  | buildFinished
deriving DecidableEq

/-- The backend trait `BuildListenerBackend`, as a record of operations so
the receiver loop can be stated once for both backends. -/
structure BackendOps (B : Type) where
  process_node : B → NodeKey → Option RegisteredAction → NodeDuration →
    List NodeKey → Option SpanId → B
  process_top_level_target : B → NodeKey → List NodeKey → B
  finish : B → Except Err BuildInfo

/-- The `BackendOps` of `DefaultBackend`. -/
def defaultBackendOps : BackendOps DefaultBackend :=
  { process_node := DefaultBackend.process_node,
    process_top_level_target := fun b _ _ => b,
    finish := DefaultBackend.finish }

/-- The `BackendOps` of `LongestPathGraphBackend`, given the external
longest-path routine. -/
def longestPathGraphBackendOps (compute : ComputeCriticalPathPotentials) :
    BackendOps LongestPathGraphBackend :=
  { process_node := LongestPathGraphBackend.process_node,
    process_top_level_target := LongestPathGraphBackend.process_top_level_target,
    finish := LongestPathGraphBackend.finish compute }

/-- The dep-key derivation of `process_action`: each input artifact with an
action key becomes an `ActionKey` node, each input transitive-set
projection becomes a `TransitiveSetProjection` node (artifacts without an
action key are skipped by the `filter_map`), and if the owner unpacks to a
target label an `Analysis` dep is chained at the end. -/
def actionDepKeys (inputs : List ArtifactGroup) (owner : BaseDeferredKey) :
    List NodeKey :=
  (inputs.filterMap (fun dep =>
    match dep with
    | .artifact artifact => artifact.actionKey.map NodeKey.actionKey
    | .transitiveSetProjection key => some (NodeKey.transitiveSetProjection key)))
  ++ (owner.unpack_target_label.map NodeKey.analysis).toList

/-- `BuildSignalReceiver::process_action`. -/
def processAction {B : Type} (ops : BackendOps B) (b : B)
    (execution : ActionExecutionSignal) : Except Err B := do
  let inputs ← execution.action.inputsRes
  .ok (ops.process_node b (NodeKey.actionKey execution.action.key)
    (some execution.action) execution.duration
    (actionDepKeys inputs execution.action.owner) execution.span_id)

/-- `BuildSignalReceiver::process_action_redirection`. -/
def processActionRedirection {B : Type} (ops : BackendOps B) (b : B)
    (redirection : ActionRedirectionSignal) : Except Err B :=
  .ok (ops.process_node b (NodeKey.actionKey redirection.key) none
    NodeDuration.zero [NodeKey.actionKey redirection.dest] none)

/-- `BuildSignalReceiver::process_transitive_set_computation`. -/
def processTransitiveSetComputation {B : Type} (ops : BackendOps B) (b : B)
    (set : TransitiveSetComputationSignal) : Except Err B :=
  .ok (ops.process_node b (NodeKey.transitiveSetProjection set.key) none
    NodeDuration.zero
    (set.artifacts.map NodeKey.actionKey
      ++ set.set_deps.map NodeKey.transitiveSetProjection) none)

/-- `BuildSignalReceiver::process_analysis`. -/
def processAnalysis {B : Type} (ops : BackendOps B) (b : B)
    (analysis : AnalysisSignal) : Except Err B :=
  .ok (ops.process_node b (NodeKey.analysis analysis.label) none
    analysis.duration (analysis.node.deps.map NodeKey.analysis)
    analysis.span_id)

/-- `BuildSignalReceiver::process_top_level_target`: resolve the revealed
artifacts exactly like `process_action` resolves inputs. -/
def processTopLevelTarget {B : Type} (ops : BackendOps B) (b : B)
    (top_level : TopLevelTargetSignal) : Except Err B :=
  .ok (ops.process_top_level_target b (NodeKey.analysis top_level.label)
    (top_level.artifacts.filterMap (fun dep =>
      match dep with
      | .artifact artifact => artifact.actionKey.map NodeKey.actionKey
      | .transitiveSetProjection key =>
        some (NodeKey.transitiveSetProjection key))))

/-- One iteration of the receiver's `match event`: dispatch a signal to the
backend.  `buildFinished` never reaches this function because the loop
breaks first; it is mapped to the identity. -/
def dispatchSignal {B : Type} (ops : BackendOps B) (b : B) :
    BuildSignal → Except Err B
  | .actionExecution s => processAction ops b s
  | .transitiveSetComputation s => processTransitiveSetComputation ops b s
  | .actionRedirection s => processActionRedirection ops b s
  | .analysis s => processAnalysis ops b s
  | .topLevelTarget s => processTopLevelTarget ops b s
  | .buildFinished => .ok b

/-! ### Wire report assembly -/

/-- The proto owner of an action (`BaseDeferredKey::as_proto` cases). -/
inductive OwnerProto where
  | targetLabel (t : Nat)
  | anonTarget (t : Nat)
  | bxlLabel (t : Nat)
deriving DecidableEq

/-- `BaseDeferredKey` to proto owner. -/
def ownerProto : BaseDeferredKey → OwnerProto
  | .targetLabel t => OwnerProto.targetLabel t
  | .anonTarget t => OwnerProto.anonTarget t
  | .bxlLabel t => OwnerProto.bxlLabel t

/-- `buck2_data::critical_path_entry2::Entry`: the variant-specific
descriptor of a wire critical path entry. -/
inductive WireEntryKind where
  | actionExecution (owner : OwnerProto) (category : String) (identifier : String)
  | analysis (target : Nat)
deriving DecidableEq

/-- `buck2_data::CriticalPathEntry2`. -/
structure CriticalPathEntry2 where
  span_id : Option SpanId
  duration : Nat
  user_duration : Nat
  total_duration : Nat
  potential_improvement_duration : Option Nat
  entry : WireEntryKind
deriving DecidableEq

/-- The first stage of the report assembly (the `filter_map` in
`run_and_log`): a `TransitiveSetProjection` key yields nothing; an
`ActionKey` key requires an action in the data (the `data.action.as_ref()?`)
and yields an action-execution descriptor; an `Analysis` key yields an
analysis descriptor. -/
def wireEntryKind (key : NodeKey) (data : NodeData) : Option WireEntryKind :=
  match key with
  | NodeKey.actionKey action_key =>
    let owner := ownerProto action_key.owner
    (data.action.map (fun action =>
      WireEntryKind.actionExecution owner action.category
        (action.identifier.getD "")))
  | NodeKey.analysis key => some (WireEntryKind.analysis key)
  | NodeKey.transitiveSetProjection _ => none

/-- The second stage of the report assembly (the `map` in `run_and_log`):
attach span id, all three durations and the potential improvement.  The
`try_into` duration conversions cannot fail in the `Nat` model. -/
def mkCriticalPathEntry2 (entry : WireEntryKind) (data : NodeData)
    (potential_improvement : Option Nat) : CriticalPathEntry2 :=
  { span_id := data.span_id,
    duration := data.duration.critical_path_duration,
    user_duration := data.duration.user,
    total_duration := data.duration.total,
    potential_improvement_duration := potential_improvement,
    entry := entry }

/-- The `critical_path2` list of the wire report: the two-stage pipeline of
`run_and_log`. -/
def assembleCriticalPath2
    (critical_path : List (NodeKey × NodeData × Option Nat)) :
    List CriticalPathEntry2 :=
  (critical_path.filterMap (fun e =>
    (wireEntryKind e.1 e.2.1).map (fun entry => (entry, e.2.1, e.2.2)))).map
    (fun e => mkCriticalPathEntry2 e.1 e.2.1 e.2.2)

/-- `buck2_data::BuildGraphExecutionInfo`, without the ambient metadata
(collected from the environment, out of scope). -/
structure BuildGraphExecutionInfo where
  critical_path2 : List CriticalPathEntry2
  num_nodes : Nat
  num_edges : Nat
  uses_total_duration : Bool
deriving DecidableEq

/-- The wire report constructed at the end of `run_and_log`. -/
def mkReport (info : BuildInfo) : BuildGraphExecutionInfo :=
  { critical_path2 := assembleCriticalPath2 info.critical_path,
    num_nodes := info.num_nodes,
    num_edges := info.num_edges,
    uses_total_duration := false }

/-- Observable steps of the receiver task, used to state the temporal
claims. -/
inductive ReceiverEvent where
  | dispatched (s : BuildSignal)
  | finished
  | emitted (report : BuildGraphExecutionInfo)
deriving DecidableEq

/-- `BuildSignalReceiver::run_and_log` on the stream of signals the channel
will deliver: dispatch signals until the first `buildFinished` (or the end
of the stream when the channel closes), then call `finish` once and emit the
report.  Returns the report, the trace of observable events, and the suffix
of the stream that was never consumed. -/
def runAndLog {B : Type} (ops : BackendOps B) (b : B) :
    List BuildSignal →
    Except Err (BuildGraphExecutionInfo × List ReceiverEvent × List BuildSignal)
  | [] => do
    let info ← ops.finish b
    let report := mkReport info
    .ok (report, [ReceiverEvent.finished, ReceiverEvent.emitted report], [])
  | .buildFinished :: rest => do
    let info ← ops.finish b
    let report := mkReport info
    .ok (report, [ReceiverEvent.finished, ReceiverEvent.emitted report], rest)
  | s :: rest => do
    let b ← dispatchSignal ops b s
    let (report, events, leftover) ← runAndLog ops b rest
    .ok (report, ReceiverEvent.dispatched s :: events, leftover)

/-- Folding `dispatchSignal` over a prefix of the stream: the backend state
the loop has accumulated when it reaches the terminal signal. -/
def foldDispatch {B : Type} (ops : BackendOps B) (b : B) :
    List BuildSignal → Except Err B
  | [] => .ok b
  | s :: rest => do foldDispatch ops (← dispatchSignal ops b s) rest

/-! ### Scope driver and backend selection -/

/-- Modelled from the spec: `EnvHelper` (`buck2_core::env_helper`, not under
`src/`) parses a boolean environment variable; the spec pins the accepted
values to `true`/`false`/`1`/`0` (section 6). -/
def envHelperParseBool (s : String) : Option Bool :=
  if s = "true" ∨ s = "1" then some true
  else if s = "false" ∨ s = "0" then some false
  else none

/-- Modelled from the spec: `EnvHelper::get_copied`.  Per the spec an absent
or unparseable variable yields no value rather than a failure ("Absent or
unparseable implies default backend", section 6). -/
def envHelperGetCopied (env : Option String) : Except Err (Option Bool) :=
  .ok (env.bind envHelperParseBool)

/-- The two backend choices of `scope`. -/
inductive BackendChoice where
  | defaultBackend
  | longestPathGraph
deriving DecidableEq

/-- The backend selection at the top of `scope`:
`USE_LONGEST_PATH_GRAPH.get_copied()?.unwrap_or_default()` followed by the
`if`/`else` over `start_listener`. -/
def scopeSelectBackend (env : Option String) : Except Err BackendChoice := do
  let use_longest_path_graph := (← envHelperGetCopied env).getD false
  .ok (if use_longest_path_graph then BackendChoice.longestPathGraph
       else BackendChoice.defaultBackend)

/-- Observable steps of the scope driver, used to state the shutdown
ordering claim. -/
inductive ScopeEvent (E R : Type) where
  | closureCompleted (result : Except E R)
  | sentBuildFinished
  | joinedHandle
deriving DecidableEq

/-- The tail of `scope` after the backend is started, as a trace semantics
of the sequential control flow: `let result = func(sender).await` (the
closure completes with `closureResult`, error or not — there is no `?` on
it), `sender.signal(BuildSignal::BuildFinished)`, `handle.await??` (the
receiver task joins with `joinResult`; a join or receiver error
short-circuits), then `result` is returned. -/
def scopeRun {E R : Type} (closureResult : Except E R)
    (joinResult : Except E (Except E Unit)) :
    List (ScopeEvent E R) × Except E R :=
  let trace : List (ScopeEvent E R) := []
  let result := closureResult
  let trace := trace ++ [ScopeEvent.closureCompleted result]
  let trace := trace ++ [ScopeEvent.sentBuildFinished]
  let joined := joinResult
  let trace := trace ++ [ScopeEvent.joinedHandle]
  match joined with
  | .error e => (trace, .error e)
  | .ok (.error e) => (trace, .error e)
  | .ok (.ok _) => (trace, result)

/-! ### Spec-side comparison definitions -/

/-- A recorded `process_node` call, used to state properties over call
sequences. -/
structure ProcessNodeCall where
  key : NodeKey
  value : Option RegisteredAction
  duration : NodeDuration
  dep_keys : List NodeKey
  span_id : Option SpanId
deriving DecidableEq

/-- Replay a sequence of `process_node` calls against the default
backend. -/
def runCalls (b : DefaultBackend) (calls : List ProcessNodeCall) :
    DefaultBackend :=
  calls.foldl (fun b c =>
    b.process_node c.key c.value c.duration c.dep_keys c.span_id) b

/-- Stated from the claim for comparison: the total number of unique
`(subject, dep)` pairs reported across all `process_node` calls. -/
def uniqueSubjectDepPairsSpec (calls : List ProcessNodeCall) : Nat :=
  (dedupFirst ((calls.map (fun c =>
    c.dep_keys.map (fun d => (c.key, d)))).flatten)).length

/-- Stated from the amended claim for comparison: the wire entry produced
from one critical-path element in a single pass.  A
`TransitiveSetProjection` key is omitted; an `ActionKey` key whose data
carries no action is omitted; every other element yields a
`CriticalPathEntry2` carrying the span id, the critical-path duration, the
user duration, the total duration and the potential improvement. -/
def wireEntrySpec (e : NodeKey × NodeData × Option Nat) :
    Option CriticalPathEntry2 :=
  match e.1 with
  | NodeKey.transitiveSetProjection _ => none
  | NodeKey.actionKey action_key =>
    match e.2.1.action with
    | none => none
    | some action =>
      some { span_id := e.2.1.span_id,
             duration := e.2.1.duration.critical_path_duration,
             user_duration := e.2.1.duration.user,
             total_duration := e.2.1.duration.total,
             potential_improvement_duration := e.2.2,
             entry := WireEntryKind.actionExecution
               (ownerProto action_key.owner) action.category
               (action.identifier.getD "") }
  | NodeKey.analysis label =>
    some { span_id := e.2.1.span_id,
           duration := e.2.1.duration.critical_path_duration,
           user_duration := e.2.1.duration.user,
           total_duration := e.2.1.duration.total,
           potential_improvement_duration := e.2.2,
           entry := WireEntryKind.analysis label }

/-! ### Theorems -/

/-- C3: for every environment state, `scope` selects the longest-path
backend exactly when `BUCK2_USE_LONGEST_PATH_GRAPH` parses to a truthy
boolean, and selects the default backend without failing when the variable
is absent or unparseable.  The single equation below covers all cases:
the selection always succeeds, and it is the longest-path backend exactly
when the variable parses to `true`. -/
theorem scope_selects_backend_from_env (env : Option String) :
    scopeSelectBackend env =
      .ok (if env.bind envHelperParseBool = some true then
        BackendChoice.longestPathGraph
      else BackendChoice.defaultBackend) := by
  cases h : env.bind envHelperParseBool with
  | none =>
    simp [scopeSelectBackend, envHelperGetCopied, h, Except.bind, bind]
  | some b =>
    cases b <;>
      simp [scopeSelectBackend, envHelperGetCopied, h, Except.bind, bind]

/-- C6: once a graph-builder push has failed, every subsequent
`process_node` call on the longest-path backend leaves the state unchanged,
and `finish` returns the stored error instead of a `BuildInfo`. -/
theorem longest_path_backend_error_latch (b : LongestPathGraphBackend)
    (e : Err) (h : b.builder = .error e) :
    (∀ key action duration dep_keys span_id,
      b.process_node key action duration dep_keys span_id = b) ∧
    (∀ compute, LongestPathGraphBackend.finish compute b = .error e) := by
  constructor
  · intro key action duration dep_keys span_id
    simp [LongestPathGraphBackend.process_node, h]
  · intro compute
    simp [LongestPathGraphBackend.finish, h, Except.bind, bind]

/-- Witness for C6: a backend whose builder holds a `duplicateVertex` error
ignores a further `process_node` call and surfaces the error from
`finish`. -/
theorem longest_path_backend_error_latch_witness :
    (LongestPathGraphBackend.process_node
        { builder := .error .duplicateVertex, top_level_analysis := [] }
        (NodeKey.analysis 0) none NodeDuration.zero [] none =
      { builder := .error .duplicateVertex, top_level_analysis := [] }) ∧
    (LongestPathGraphBackend.finish (fun _ _ => .ok ([], 0, []))
        { builder := .error .duplicateVertex, top_level_analysis := [] } =
      .error .duplicateVertex) := by
  have h := longest_path_backend_error_latch
    { builder := .error .duplicateVertex, top_level_analysis := [] }
    .duplicateVertex rfl
  exact ⟨h.1 (NodeKey.analysis 0) none NodeDuration.zero [] none,
    h.2 (fun _ _ => .ok ([], 0, []))⟩

/-- C8: `scope` sends `BuildFinished` after the closure completes on every
path, whether the closure's result is `Ok` or `Err`, sends it before
awaiting the receiver task's join handle, and returns the closure's result
when the join succeeds. -/
theorem scope_shutdown_order (E R : Type) (closureResult : Except E R)
    (joinResult : Except E (Except E Unit)) :
    (∃ l₁ l₂, (scopeRun closureResult joinResult).1 =
        l₁ ++ ScopeEvent.sentBuildFinished :: l₂ ∧
        ScopeEvent.closureCompleted closureResult ∈ l₁ ∧
        ScopeEvent.joinedHandle ∈ l₂) ∧
    (∀ u, joinResult = .ok (.ok u) →
      (scopeRun closureResult joinResult).2 = closureResult) := by
  constructor
  · refine ⟨[ScopeEvent.closureCompleted closureResult],
      [ScopeEvent.joinedHandle], ?_, ?_, ?_⟩ <;>
      rcases joinResult with e | (e | u) <;> simp [scopeRun]
  · intro u h
    subst h
    simp [scopeRun]

/-- Witness for C8: with an `Err` closure result the trace still contains
`sentBuildFinished` between the closure completion and the join, and with a
successful join the closure's `Ok` result is returned. -/
theorem scope_shutdown_order_witness :
    (∃ l₁ l₂,
      (scopeRun (E := Err) (R := Nat) (.error .inputsFailed)
          (.ok (.ok ()))).1 =
        l₁ ++ ScopeEvent.sentBuildFinished :: l₂ ∧
        ScopeEvent.closureCompleted (.error .inputsFailed) ∈ l₁ ∧
        ScopeEvent.joinedHandle ∈ l₂) ∧
    (scopeRun (E := Err) (R := Nat) (.ok 7) (.ok (.ok ()))).2 = .ok 7 := by
  exact ⟨(scope_shutdown_order Err Nat (.error .inputsFailed)
      (.ok (.ok ()))).1,
    (scope_shutdown_order Err Nat (.ok 7) (.ok (.ok ()))).2 () rfl⟩

/-- C10: when processing an `ActionExecution` signal, input artifacts
without an associated action key contribute no dependency `NodeKey` (the
dep list is unchanged when they are removed), an owner that is not a target
label contributes no `Analysis` dependency, and `process_action` passes
exactly the derived dep keys to `process_node`. -/
theorem process_action_skips_sourceless_inputs (inputs : List ArtifactGroup)
    (owner : BaseDeferredKey) :
    (actionDepKeys inputs owner =
      actionDepKeys (inputs.filter (fun dep =>
        match dep with
        | .artifact a => a.actionKey.isSome
        | .transitiveSetProjection _ => true)) owner) ∧
    (owner.unpack_target_label = none →
      ∀ label, NodeKey.analysis label ∉ actionDepKeys inputs owner) ∧
    (∀ (B : Type) (ops : BackendOps B) (b : B)
      (execution : ActionExecutionSignal),
      execution.action.inputsRes = .ok inputs →
      processAction ops b execution = .ok (ops.process_node b
        (NodeKey.actionKey execution.action.key) (some execution.action)
        execution.duration (actionDepKeys inputs execution.action.owner)
        execution.span_id)) := by
  refine ⟨?_, ?_, ?_⟩
  · unfold actionDepKeys
    congr 1
    induction inputs with
    | nil => rfl
    | cons d rest ih =>
      cases d with
      | artifact a =>
        cases h : a.actionKey <;> simp [h, ih]
      | transitiveSetProjection k => simp [ih]
  · intro h label hmem
    unfold actionDepKeys at hmem
    rcases List.mem_append.mp hmem with hl | hr
    · rcases List.mem_filterMap.mp hl with ⟨d, _, hd⟩
      cases d with
      | artifact a => cases ha : a.actionKey <;> simp [ha] at hd
      | transitiveSetProjection k => simp at hd
    · simp [h] at hr
  · intro B ops b execution h
    simp [processAction, h, Except.bind, bind]

/-- Witness for C10: a source artifact (no action key) adds no dep, an
anon-target owner adds no `Analysis` dep, and `process_action` on the
default backend passes the derived dep list. -/
theorem process_action_skips_sourceless_inputs_witness :
    (actionDepKeys
        [ArtifactGroup.artifact { actionKey := none },
         ArtifactGroup.transitiveSetProjection 4]
        (BaseDeferredKey.anonTarget 0) =
      actionDepKeys
        ([ArtifactGroup.artifact { actionKey := none },
          ArtifactGroup.transitiveSetProjection 4].filter (fun dep =>
          match dep with
          | .artifact a => a.actionKey.isSome
          | .transitiveSetProjection _ => true))
        (BaseDeferredKey.anonTarget 0)) ∧
    (NodeKey.analysis 5 ∉ actionDepKeys
      [ArtifactGroup.artifact { actionKey := none },
       ArtifactGroup.transitiveSetProjection 4]
      (BaseDeferredKey.anonTarget 0)) ∧
    (processAction defaultBackendOps DefaultBackend.new
        { action := { key := { owner := BaseDeferredKey.anonTarget 0, id := 1 },
                      category := "copy", identifier := none,
                      inputsRes := .ok [ArtifactGroup.artifact { actionKey := none },
                        ArtifactGroup.transitiveSetProjection 4] },
          duration := { user := 3, total := 4 }, span_id := none } =
      .ok (defaultBackendOps.process_node DefaultBackend.new
        (NodeKey.actionKey { owner := BaseDeferredKey.anonTarget 0, id := 1 })
        (some { key := { owner := BaseDeferredKey.anonTarget 0, id := 1 },
                category := "copy", identifier := none,
                inputsRes := .ok [ArtifactGroup.artifact { actionKey := none },
                  ArtifactGroup.transitiveSetProjection 4] })
        { user := 3, total := 4 }
        (actionDepKeys
          [ArtifactGroup.artifact { actionKey := none },
           ArtifactGroup.transitiveSetProjection 4]
          (BaseDeferredKey.anonTarget 0)) none)) := by
  have h := process_action_skips_sourceless_inputs
    [ArtifactGroup.artifact { actionKey := none },
     ArtifactGroup.transitiveSetProjection 4]
    (BaseDeferredKey.anonTarget 0)
  exact ⟨h.1, h.2.1 rfl 5, h.2.2 DefaultBackend defaultBackendOps
    DefaultBackend.new _ rfl⟩

/-- Counterexample for C2 as stated: a critical-path element whose key is
an `ActionKey` but whose data carries no action (exactly what an
`ActionRedirection` node records) produces no wire entry, although the
claim says every `ActionKey` entry produces a `CriticalPathEntry2`. -/
theorem critical_path2_drops_actionless_action_key :
    assembleCriticalPath2
        [(NodeKey.actionKey { owner := BaseDeferredKey.targetLabel 0, id := 0 },
          { action := none, duration := { user := 3, total := 3 },
            span_id := some 9 },
          none)] =
      [] := by
  rfl

/-- C2 as amended: in the report assembly, exactly the entries whose key is
a `TransitiveSetProjection` and the `ActionKey` entries whose data carries
no action are omitted; every other entry produces a `CriticalPathEntry2`
carrying the span id, the critical-path duration, the user duration, the
total duration and the potential improvement when present.  Stated as the
equality of the source's two-stage pipeline with the single-pass
specification `wireEntrySpec`. -/
theorem critical_path2_assembly_spec
    (critical_path : List (NodeKey × NodeData × Option Nat)) :
    assembleCriticalPath2 critical_path =
      critical_path.filterMap wireEntrySpec := by
  induction critical_path with
  | nil => rfl
  | cons e rest ih =>
    obtain ⟨key, data, potential⟩ := e
    cases key with
    | actionKey action_key =>
      cases h : data.action with
      | none =>
        simp [assembleCriticalPath2, wireEntrySpec, wireEntryKind, h] at ih ⊢
        exact ih
      | some action =>
        simp [assembleCriticalPath2, wireEntrySpec, wireEntryKind,
          mkCriticalPathEntry2, h] at ih ⊢
        exact ih
    | transitiveSetProjection k =>
      simp [assembleCriticalPath2, wireEntrySpec, wireEntryKind] at ih ⊢
      exact ih
    | analysis label =>
      simp [assembleCriticalPath2, wireEntrySpec, wireEntryKind,
        mkCriticalPathEntry2] at ih ⊢
      exact ih

/-- The dedup worker depends on its `seen` accumulator only through
membership. -/
theorem dedupFirstAux_congr {α : Type} [DecidableEq α] :
    ∀ (l seen₁ seen₂ : List α), (∀ y ∈ l, (y ∈ seen₁ ↔ y ∈ seen₂)) →
      dedupFirstAux seen₁ l = dedupFirstAux seen₂ l := by
  intro l
  induction l with
  | nil => intro seen₁ seen₂ _; rfl
  | cons x xs ih =>
    intro seen₁ seen₂ h
    have hx := h x (List.mem_cons_self x xs)
    by_cases hmem : x ∈ seen₁
    · simp only [dedupFirstAux, if_pos hmem, if_pos (hx.mp hmem)]
      exact ih seen₁ seen₂ (fun y hy => h y (List.mem_cons_of_mem x hy))
    · have hmem₂ : x ∉ seen₂ := fun hc => hmem (hx.mpr hc)
      simp only [dedupFirstAux, if_neg hmem, if_neg hmem₂]
      refine congrArg _ (ih (x :: seen₁) (x :: seen₂) (fun y hy => ?_))
      simp [h y (List.mem_cons_of_mem x hy)]

/-- The dedup worker splits over an append: the second part is deduped with
the first part added to the accumulator. -/
theorem dedupFirstAux_append {α : Type} [DecidableEq α] (l₂ : List α) :
    ∀ (l₁ seen : List α), dedupFirstAux seen (l₁ ++ l₂) =
      dedupFirstAux seen l₁ ++ dedupFirstAux (l₁ ++ seen) l₂ := by
  intro l₁
  induction l₁ with
  | nil => intro seen; rfl
  | cons x xs ih =>
    intro seen
    by_cases hmem : x ∈ seen
    · simp only [List.cons_append, dedupFirstAux, if_pos hmem, List.append_eq]
      rw [ih seen]
      congr 1
      refine dedupFirstAux_congr l₂ _ _ (fun y _ => ?_)
      constructor
      · intro hy
        exact List.mem_cons_of_mem x hy
      · intro hy
        rcases List.mem_cons.mp hy with rfl | h
        · exact List.mem_append.mpr (.inr hmem)
        · exact h
    · simp only [List.cons_append, dedupFirstAux, if_neg hmem, List.append_eq]
      rw [ih (x :: seen)]
      congr 2
      refine dedupFirstAux_congr l₂ _ _ (fun y _ => ?_)
      constructor
      · intro hy
        rcases List.mem_append.mp hy with h | h
        · exact List.mem_cons_of_mem x (List.mem_append.mpr (.inl h))
        · rcases List.mem_cons.mp h with rfl | h
          · exact List.mem_cons_self _ _
          · exact List.mem_cons_of_mem x (List.mem_append.mpr (.inr h))
      · intro hy
        rcases List.mem_cons.mp hy with rfl | h
        · exact List.mem_append.mpr (.inr (List.mem_cons_self _ _))
        · rcases List.mem_append.mp h with h | h
          · exact List.mem_append.mpr (.inl h)
          · exact List.mem_append.mpr (.inr (List.mem_cons_of_mem x h))

/-- Deduplication distributes over an append of disjoint lists. -/
theorem dedupFirst_append_of_disjoint {α : Type} [DecidableEq α]
    (l₁ l₂ : List α) (h : ∀ x ∈ l₁, ∀ y ∈ l₂, x ≠ y) :
    dedupFirst (l₁ ++ l₂) = dedupFirst l₁ ++ dedupFirst l₂ := by
  unfold dedupFirst
  rw [dedupFirstAux_append l₂ l₁ []]
  refine congrArg _ (dedupFirstAux_congr l₂ _ _ (fun y hy => ?_))
  simp only [List.append_nil, List.not_mem_nil, iff_false]
  exact fun hc => h y hc y hy rfl

/-- The dedup worker commutes with mapping an injective function. -/
theorem dedupFirstAux_map {α β : Type} [DecidableEq α] [DecidableEq β]
    (f : α → β) (hf : Function.Injective f) :
    ∀ (l seen : List α), dedupFirstAux (seen.map f) (l.map f) =
      (dedupFirstAux seen l).map f := by
  intro l
  induction l with
  | nil => intro seen; rfl
  | cons x xs ih =>
    intro seen
    by_cases hmem : x ∈ seen
    · have : f x ∈ seen.map f := List.mem_map.mpr ⟨x, hmem, rfl⟩
      simp only [List.map_cons, dedupFirstAux, if_pos hmem, if_pos this, ih]
    · have : f x ∉ seen.map f := by
        intro hc
        rcases List.mem_map.mp hc with ⟨y, hy, hxy⟩
        exact hmem (hf hxy ▸ hy)
      simp only [List.map_cons, dedupFirstAux, if_neg hmem, if_neg this]
      exact congrArg _ (ih (x :: seen))

/-- Deduplication commutes with mapping an injective function. -/
theorem dedupFirst_map {α β : Type} [DecidableEq α] [DecidableEq β]
    (f : α → β) (hf : Function.Injective f) (l : List α) :
    dedupFirst (l.map f) = (dedupFirst l).map f :=
  dedupFirstAux_map f hf l []

/-- Replaying `process_node` calls accumulates one edge per deduplicated
dep of each call. -/
theorem runCalls_num_edges (calls : List ProcessNodeCall) :
    ∀ b : DefaultBackend, (runCalls b calls).num_edges =
      b.num_edges + (calls.map (fun c => (dedupFirst c.dep_keys).length)).sum := by
  induction calls with
  | nil => intro b; simp [runCalls]
  | cons c rest ih =>
    intro b
    have step : runCalls b (c :: rest) =
        runCalls (b.process_node c.key c.value c.duration c.dep_keys c.span_id)
          rest := rfl
    rw [step, ih]
    simp [DefaultBackend.process_node]
    omega

/-- Every pair reported by a call sequence carries the key of one of its
calls. -/
theorem mem_flatten_pairs_key (calls : List ProcessNodeCall)
    (y : NodeKey × NodeKey)
    (hy : y ∈ (calls.map (fun c =>
      c.dep_keys.map (fun d => (c.key, d)))).flatten) :
    y.1 ∈ calls.map (fun c => c.key) := by
  rcases List.mem_flatten.mp hy with ⟨L, hL, hyL⟩
  rcases List.mem_map.mp hL with ⟨c, hc, rfl⟩
  rcases List.mem_map.mp hyL with ⟨d, _, rfl⟩
  exact List.mem_map.mpr ⟨c, hc, rfl⟩

/-- Counterexample for C4 as stated: two `process_node` calls with the same
subject key and the same single dep yield `num_edges = 2`, while the number
of unique `(subject, dep)` pairs reported across the calls is `1`. -/
theorem num_edges_double_count_counterexample :
    (runCalls DefaultBackend.new
        [{ key := NodeKey.analysis 0, value := none,
           duration := { user := 1, total := 1 },
           dep_keys := [NodeKey.analysis 1], span_id := none },
         { key := NodeKey.analysis 0, value := none,
           duration := { user := 1, total := 1 },
           dep_keys := [NodeKey.analysis 1], span_id := none }]).num_edges = 2 ∧
    uniqueSubjectDepPairsSpec
        [{ key := NodeKey.analysis 0, value := none,
           duration := { user := 1, total := 1 },
           dep_keys := [NodeKey.analysis 1], span_id := none },
         { key := NodeKey.analysis 0, value := none,
           duration := { user := 1, total := 1 },
           dep_keys := [NodeKey.analysis 1], span_id := none }] = 1 := by
  constructor <;> rfl

/-- C4 as amended: after any sequence of `process_node` calls the default
backend's `num_edges` equals the sum over the calls of the number of
deduplicated deps of each call — each unique dep of a call counts one edge
whether or not that dep was ever seen, and a repeated call with a duplicate
subject key counts its edges again.  When no subject key repeats this
equals the total number of unique `(subject, dep)` pairs reported across
all calls. -/
theorem num_edges_counts_unique_deps_per_call (calls : List ProcessNodeCall) :
    ((runCalls DefaultBackend.new calls).num_edges =
      (calls.map (fun c => (dedupFirst c.dep_keys).length)).sum) ∧
    ((calls.map (fun c => c.key)).Nodup →
      (runCalls DefaultBackend.new calls).num_edges =
        uniqueSubjectDepPairsSpec calls) := by
  constructor
  · simpa [DefaultBackend.new] using runCalls_num_edges calls DefaultBackend.new
  · intro hnd
    have base : (runCalls DefaultBackend.new calls).num_edges =
        (calls.map (fun c => (dedupFirst c.dep_keys).length)).sum := by
      simpa [DefaultBackend.new] using runCalls_num_edges calls DefaultBackend.new
    rw [base]
    clear base
    induction calls with
    | nil => rfl
    | cons c rest ih =>
      have hkey : c.key ∉ rest.map (fun c => c.key) :=
        (List.nodup_cons.mp hnd).1
      have hrest := ih (List.nodup_cons.mp hnd).2
      have hdisj : ∀ x ∈ c.dep_keys.map (fun d => (c.key, d)),
          ∀ y ∈ (rest.map (fun c =>
            c.dep_keys.map (fun d => (c.key, d)))).flatten, x ≠ y := by
        intro x hx y hy hxy
        rcases List.mem_map.mp hx with ⟨d, _, rfl⟩
        exact hkey (by simpa [← hxy] using mem_flatten_pairs_key rest y hy)
      have hpair : dedupFirst (c.dep_keys.map (fun d => (c.key, d))) =
          (dedupFirst c.dep_keys).map (fun d => (c.key, d)) :=
        dedupFirst_map _ (fun a b h => by simpa using h) _
      calc (List.map (fun c => (dedupFirst c.dep_keys).length) (c :: rest)).sum
          = (dedupFirst c.dep_keys).length +
            (rest.map (fun c => (dedupFirst c.dep_keys).length)).sum := by
            simp
        _ = (dedupFirst c.dep_keys).length + uniqueSubjectDepPairsSpec rest := by
            rw [hrest]
        _ = uniqueSubjectDepPairsSpec (c :: rest) := by
            unfold uniqueSubjectDepPairsSpec
            rw [List.map_cons, List.flatten_cons,
              dedupFirst_append_of_disjoint _ _ hdisj, List.length_append,
              hpair, List.length_map]

/-- Witness for C4 as amended: with two distinct subjects both dep counts
agree with the unique-pair count. -/
theorem num_edges_counts_unique_deps_per_call_witness :
    ((runCalls DefaultBackend.new
        [{ key := NodeKey.analysis 0, value := none,
           duration := { user := 1, total := 1 },
           dep_keys := [NodeKey.analysis 2, NodeKey.analysis 2], span_id := none },
         { key := NodeKey.analysis 1, value := none,
           duration := { user := 1, total := 1 },
           dep_keys := [NodeKey.analysis 2], span_id := none }]).num_edges =
      (([{ key := NodeKey.analysis 0, value := none,
           duration := { user := 1, total := 1 },
           dep_keys := [NodeKey.analysis 2, NodeKey.analysis 2], span_id := none },
         { key := NodeKey.analysis 1, value := none,
           duration := { user := 1, total := 1 },
           dep_keys := [NodeKey.analysis 2], span_id := none }] :
          List ProcessNodeCall).map
        (fun c => (dedupFirst c.dep_keys).length)).sum) ∧
    ((runCalls DefaultBackend.new
        [{ key := NodeKey.analysis 0, value := none,
           duration := { user := 1, total := 1 },
           dep_keys := [NodeKey.analysis 2, NodeKey.analysis 2], span_id := none },
         { key := NodeKey.analysis 1, value := none,
           duration := { user := 1, total := 1 },
           dep_keys := [NodeKey.analysis 2], span_id := none }]).num_edges =
      uniqueSubjectDepPairsSpec
        [{ key := NodeKey.analysis 0, value := none,
           duration := { user := 1, total := 1 },
           dep_keys := [NodeKey.analysis 2, NodeKey.analysis 2], span_id := none },
         { key := NodeKey.analysis 1, value := none,
           duration := { user := 1, total := 1 },
           dep_keys := [NodeKey.analysis 2], span_id := none }]) := by
  have h := num_edges_counts_unique_deps_per_call
    [{ key := NodeKey.analysis 0, value := none,
       duration := { user := 1, total := 1 },
       dep_keys := [NodeKey.analysis 2, NodeKey.analysis 2], span_id := none },
     { key := NodeKey.analysis 1, value := none,
       duration := { user := 1, total := 1 },
       dep_keys := [NodeKey.analysis 2], span_id := none }]
  exact ⟨h.1, h.2 (by decide)⟩

/-- `maxByKeyLast` never returns `none` on a nonempty list. -/
theorem maxByKeyLast_cons_ne_none {α : Type} (f : α → Nat) (a : α)
    (l : List α) : maxByKeyLast f (a :: l) ≠ none := by
  cases h : maxByKeyLast f l <;> simp [maxByKeyLast, h]
  split <;> simp

/-- The element returned by `maxByKeyLast` is a member and is maximal. -/
theorem maxByKeyLast_mem_le {α : Type} (f : α → Nat) :
    ∀ (l : List α) (x : α), maxByKeyLast f l = some x →
      x ∈ l ∧ ∀ y ∈ l, f y ≤ f x := by
  intro l
  induction l with
  | nil => intro x h; simp [maxByKeyLast] at h
  | cons a as ih =>
    intro x h
    cases hm : maxByKeyLast f as with
    | none =>
      cases as with
      | nil =>
        simp [maxByKeyLast] at h
        subst h
        simp
      | cons b bs => exact absurd hm (maxByKeyLast_cons_ne_none f b bs)
    | some y =>
      rcases ih y hm with ⟨hymem, hybound⟩
      simp only [maxByKeyLast, hm] at h
      by_cases hle : f a ≤ f y
      · rw [if_pos hle] at h
        cases h
        refine ⟨List.mem_cons_of_mem a hymem, fun z hz => ?_⟩
        rcases List.mem_cons.mp hz with rfl | hz
        · exact hle
        · exact hybound z hz
      · rw [if_neg hle] at h
        cases h
        refine ⟨List.mem_cons_self _ _, fun z hz => ?_⟩
        rcases List.mem_cons.mp hz with rfl | hz
        · exact Nat.le_refl _
        · exact Nat.le_of_lt (Nat.lt_of_le_of_lt (hybound z hz)
            (Nat.lt_of_not_le hle))

/-- Unfolding lemma: `maxByKeyLast` on a cons whose tail's maximum is
known. -/
theorem maxByKeyLast_cons_some {α : Type} (f : α → Nat) (a y : α)
    (l : List α) (h : maxByKeyLast f l = some y) :
    maxByKeyLast f (a :: l) = if f a ≤ f y then some y else some a := by
  simp [maxByKeyLast, h]

/-- When every later element is strictly smaller, the head is the
maximum. -/
theorem maxByKeyLast_cons_of_gt {α : Type} (f : α → Nat) (x : α)
    (l : List α) (h : ∀ y ∈ l, f y < f x) :
    maxByKeyLast f (x :: l) = some x := by
  cases hm : maxByKeyLast f l with
  | none => simp [maxByKeyLast, hm]
  | some y =>
    have hy := (maxByKeyLast_mem_le f l y hm).1
    have : ¬ f x ≤ f y := Nat.not_le_of_lt (h y hy)
    simp [maxByKeyLast, hm, this]

/-- A decomposition `l₁ ++ x :: l₂` where everything before `x` is at most
`f x` and everything after is strictly below `f x` pins down the result of
`maxByKeyLast`: the last maximal element wins. -/
theorem maxByKeyLast_of_decomp {α : Type} (f : α → Nat) :
    ∀ (l₁ : List α) (x : α) (l₂ : List α),
      (∀ y ∈ l₁, f y ≤ f x) → (∀ y ∈ l₂, f y < f x) →
      maxByKeyLast f (l₁ ++ x :: l₂) = some x := by
  intro l₁
  induction l₁ with
  | nil => intro x l₂ _ h₂; exact maxByKeyLast_cons_of_gt f x l₂ h₂
  | cons a l₁ ih =>
    intro x l₂ h₁ h₂
    have hrest : maxByKeyLast f (l₁ ++ x :: l₂) = some x :=
      ih x l₂ (fun y hy => h₁ y (List.mem_cons_of_mem a hy)) h₂
    have hax : f a ≤ f x := h₁ a (List.mem_cons_self a l₁)
    simp [maxByKeyLast, hrest, hax]

/-- Every nonempty list decomposes around its last maximal element. -/
theorem maxByKeyLast_exists_decomp {α : Type} (f : α → Nat) :
    ∀ l : List α, l ≠ [] →
      ∃ l₁ x l₂, l = l₁ ++ x :: l₂ ∧ maxByKeyLast f l = some x ∧
        (∀ y ∈ l₁, f y ≤ f x) ∧ (∀ y ∈ l₂, f y < f x) := by
  intro l
  induction l with
  | nil => intro h; exact absurd rfl h
  | cons a as ih =>
    intro _
    cases as with
    | nil =>
      exact ⟨[], a, [], rfl, by simp [maxByKeyLast], by simp, by simp⟩
    | cons b bs =>
      rcases ih (by simp) with ⟨m₁, y, m₂, hsplit, hmax, h₁, h₂⟩
      by_cases hle : f a ≤ f y
      · refine ⟨a :: m₁, y, m₂, by simp [hsplit], ?_, ?_, h₂⟩
        · rw [maxByKeyLast_cons_some f a y (b :: bs) hmax, if_pos hle]
        · intro z hz
          rcases List.mem_cons.mp hz with rfl | hz
          · exact hle
          · exact h₁ z hz
      · refine ⟨[], a, b :: bs, rfl, ?_, by simp, ?_⟩
        · rw [maxByKeyLast_cons_some f a y (b :: bs) hmax, if_neg hle]
        · intro z hz
          have hmem : z ∈ m₁ ++ y :: m₂ := hsplit ▸ hz
          have hzy : f z ≤ f y := by
            rcases List.mem_append.mp hmem with h | h
            · exact h₁ z h
            · rcases List.mem_cons.mp h with rfl | h
              · exact Nat.le_refl _
              · exact Nat.le_of_lt (h₂ z h)
          exact Nat.lt_of_le_of_lt hzy (Nat.lt_of_not_le hle)

/-- Looking up the just-inserted key returns the inserted value. -/
theorem mapGet_mapInsert_self {K V : Type} [DecidableEq K]
    (m : List (K × V)) (k : K) (v : V) :
    mapGet (mapInsert m k v) k = some v := by
  unfold mapInsert
  by_cases h : (m.find? (fun p => p.1 = k)).isSome
  · rw [if_pos h]
    induction m with
    | nil => simp at h
    | cons p rest ih =>
      by_cases hp : p.1 = k
      · simp [mapGet, hp]
      · have : (rest.find? (fun p => p.1 = k)).isSome := by
          simpa [List.find?, hp] using h
        simpa [mapGet, hp] using ih this
  · rw [if_neg h]
    induction m with
    | nil => simp [mapGet]
    | cons p rest ih =>
      have hp : ¬ p.1 = k := by
        intro hc
        simp [List.find?, hc] at h
      have hrest : ¬ (rest.find? (fun p => p.1 = k)).isSome := by
        simpa [List.find?, hp] using h
      simpa [mapGet, hp] using ih hrest

/-- Counterexample for C1 as stated: two deps with equal (tied) cumulative
durations; the inserted node's predecessor is the dep seen last
(`analysis 2`), not the first-seen dep (`analysis 1`) the claim
prescribes. -/
theorem process_node_tie_breaks_last_counterexample :
    (mapGet ((DefaultBackend.new.process_node (NodeKey.analysis 1) none
          { user := 5, total := 5 } [] none).process_node (NodeKey.analysis 2)
          none { user := 5, total := 5 } [] none).predecessors
        (NodeKey.analysis 1)).map (fun n => n.duration) = some 5 ∧
    (mapGet ((DefaultBackend.new.process_node (NodeKey.analysis 1) none
          { user := 5, total := 5 } [] none).process_node (NodeKey.analysis 2)
          none { user := 5, total := 5 } [] none).predecessors
        (NodeKey.analysis 2)).map (fun n => n.duration) = some 5 ∧
    (mapGet (((DefaultBackend.new.process_node (NodeKey.analysis 1) none
          { user := 5, total := 5 } [] none).process_node (NodeKey.analysis 2)
          none { user := 5, total := 5 } [] none).process_node
          (NodeKey.analysis 3) none { user := 7, total := 7 }
          [NodeKey.analysis 1, NodeKey.analysis 2] none).predecessors
        (NodeKey.analysis 3)).map (fun n => n.prev) =
      some (some (NodeKey.analysis 2)) ∧
    NodeKey.analysis 2 ≠ NodeKey.analysis 1 := by
  refine ⟨?_, ?_, ?_, by decide⟩ <;> decide

/-- C1 as amended: in the default backend, `process_node` chooses as
predecessor the unique dep already present in the map with the maximum
cumulative duration, ties broken by the one seen last among the
deduplicated deps, and the inserted node's cumulative duration equals that
ancestor's cumulative duration plus `duration.user` (or just
`duration.user` when no dep is present in the map). -/
theorem process_node_picks_longest_ancestor (b : DefaultBackend)
    (key : NodeKey) (value : Option RegisteredAction)
    (duration : NodeDuration) (dep_keys : List NodeKey)
    (span_id : Option SpanId) :
    (processNodeCandidates b dep_keys = [] →
      mapGet (b.process_node key value duration dep_keys span_id).predecessors
          key =
        some { duration := duration.user,
               value := { action := value, duration := duration,
                          span_id := span_id },
               prev := none }) ∧
    (∀ l₁ p l₂, processNodeCandidates b dep_keys = l₁ ++ p :: l₂ →
      (∀ q ∈ l₁, q.2 ≤ p.2) → (∀ q ∈ l₂, q.2 < p.2) →
      mapGet (b.process_node key value duration dep_keys span_id).predecessors
          key =
        some { duration := p.2 + duration.user,
               value := { action := value, duration := duration,
                          span_id := span_id },
               prev := some p.1 }) ∧
    (processNodeCandidates b dep_keys ≠ [] →
      ∃ l₁ p l₂, processNodeCandidates b dep_keys = l₁ ++ p :: l₂ ∧
        (∀ q ∈ l₁, q.2 ≤ p.2) ∧ (∀ q ∈ l₂, q.2 < p.2)) := by
  refine ⟨?_, ?_, ?_⟩
  · intro hempty
    simp only [DefaultBackend.process_node, hempty, maxByKeyLast]
    simpa [NodeDuration.critical_path_duration] using
      mapGet_mapInsert_self b.predecessors key _
  · intro l₁ p l₂ hsplit h₁ h₂
    have hmax : maxByKeyLast (fun d => d.2)
        (processNodeCandidates b dep_keys) = some p := by
      rw [hsplit]
      exact maxByKeyLast_of_decomp _ l₁ p l₂ h₁ h₂
    simp only [DefaultBackend.process_node, hmax]
    simpa [NodeDuration.critical_path_duration] using
      mapGet_mapInsert_self b.predecessors key _
  · intro hne
    rcases maxByKeyLast_exists_decomp (fun d => d.2)
        (processNodeCandidates b dep_keys) hne with
      ⟨l₁, p, l₂, hsplit, _, h₁, h₂⟩
    exact ⟨l₁, p, l₂, hsplit, h₁, h₂⟩

/-- Witness for C1 as amended: with two deps tied at cumulative duration 5
the decomposition with the second dep as last maximum applies, and the
inserted node records `prev = analysis 2` and cumulative duration
`5 + 7`. -/
theorem process_node_picks_longest_ancestor_witness :
    mapGet (((DefaultBackend.new.process_node (NodeKey.analysis 1) none
          { user := 5, total := 5 } [] none).process_node (NodeKey.analysis 2)
          none { user := 5, total := 5 } [] none).process_node
          (NodeKey.analysis 3) none { user := 7, total := 7 }
          [NodeKey.analysis 1, NodeKey.analysis 2] none).predecessors
        (NodeKey.analysis 3) =
      some { duration := 5 + 7,
             value := { action := none,
                        duration := { user := 7, total := 7 },
                        span_id := none },
             prev := some (NodeKey.analysis 2) } := by
  exact (process_node_picks_longest_ancestor
      ((DefaultBackend.new.process_node (NodeKey.analysis 1) none
        { user := 5, total := 5 } [] none).process_node (NodeKey.analysis 2)
        none { user := 5, total := 5 } [] none)
      (NodeKey.analysis 3) none { user := 7, total := 7 }
      [NodeKey.analysis 1, NodeKey.analysis 2] none).2.1
    [(NodeKey.analysis 1, 5)] (NodeKey.analysis 2, 5) [] (by decide)
    (by decide) (by decide)

/-- Bind on `Except` applied to a success. -/
theorem except_bind_ok {ε α β : Type} (a : α) (f : α → Except ε β) :
    (Except.ok a >>= f) = f a := rfl

/-- Bind on `Except` applied to an error. -/
theorem except_bind_error {ε α β : Type} (e : ε) (f : α → Except ε β) :
    ((Except.error e : Except ε α) >>= f) = Except.error e := rfl

/-- C9: the receiver loop dispatches no signal that occurs after the first
`BuildFinished` in the consumed stream: upon consuming it, the loop exits,
`finish` is called exactly once on the state accumulated from the prefix,
the report is emitted, and the suffix after the first `BuildFinished`
(including further `BuildFinished` tokens) is left unconsumed. -/
theorem receiver_stops_at_first_build_finished {B : Type}
    (ops : BackendOps B) (post : List BuildSignal) :
    ∀ pre : List BuildSignal, BuildSignal.buildFinished ∉ pre →
      ∀ b b' : B, foldDispatch ops b pre = .ok b' →
      runAndLog ops b (pre ++ BuildSignal.buildFinished :: post) =
        match ops.finish b' with
        | .error e => .error e
        | .ok info =>
          .ok (mkReport info,
            pre.map ReceiverEvent.dispatched ++
              [ReceiverEvent.finished, ReceiverEvent.emitted (mkReport info)],
            post) := by
  intro pre
  induction pre with
  | nil =>
    intro _ b b' hfold
    have hb : b = b' := by simpa [foldDispatch] using hfold
    subst hb
    simp only [List.nil_append, List.map_nil]
    cases hfin : ops.finish b <;>
      simp [runAndLog, hfin, Bind.bind, Except.bind]
  | cons s rest ih =>
    intro hpre b b' hfold
    have hs : s ≠ BuildSignal.buildFinished :=
      fun h => hpre (h ▸ List.mem_cons_self s rest)
    have hrest : BuildSignal.buildFinished ∉ rest :=
      fun h => hpre (List.mem_cons_of_mem s h)
    cases hdisp : dispatchSignal ops b s with
    | error e =>
      rw [show foldDispatch ops b (s :: rest) =
        (dispatchSignal ops b s >>= fun x => foldDispatch ops x rest)
        from rfl, hdisp, except_bind_error] at hfold
      simp at hfold
    | ok b₁ =>
      have hfold₁ : foldDispatch ops b₁ rest = .ok b' := by
        rw [show foldDispatch ops b (s :: rest) =
          (dispatchSignal ops b s >>= fun x => foldDispatch ops x rest)
          from rfl, hdisp, except_bind_ok] at hfold
        exact hfold
      have hrun := ih hrest b₁ b' hfold₁
      cases s with
      | buildFinished => exact absurd rfl hs
      | actionExecution sig =>
        simp only [List.cons_append, runAndLog, hdisp, except_bind_ok, hrun,
          dispatchSignal] at hdisp ⊢
        rw [hdisp]
        cases hfin : ops.finish b' <;>
          simp [hrun, hfin, Bind.bind, Except.bind]
      | transitiveSetComputation sig =>
        simp only [List.cons_append, runAndLog, hdisp, except_bind_ok, hrun,
          dispatchSignal] at hdisp ⊢
        rw [hdisp]
        cases hfin : ops.finish b' <;>
          simp [hrun, hfin, Bind.bind, Except.bind]
      | actionRedirection sig =>
        simp only [List.cons_append, runAndLog, hdisp, except_bind_ok, hrun,
          dispatchSignal] at hdisp ⊢
        rw [hdisp]
        cases hfin : ops.finish b' <;>
          simp [hrun, hfin, Bind.bind, Except.bind]
      | analysis sig =>
        simp only [List.cons_append, runAndLog, hdisp, except_bind_ok, hrun,
          dispatchSignal] at hdisp ⊢
        rw [hdisp]
        cases hfin : ops.finish b' <;>
          simp [hrun, hfin, Bind.bind, Except.bind]
      | topLevelTarget sig =>
        simp only [List.cons_append, runAndLog, hdisp, except_bind_ok, hrun,
          dispatchSignal] at hdisp ⊢
        rw [hdisp]
        cases hfin : ops.finish b' <;>
          simp [hrun, hfin, Bind.bind, Except.bind]

/-- Witness for C9: one analysis signal, then `BuildFinished`, then one more
stale `BuildFinished`: the receiver dispatches the prefix, finishes, emits,
and leaves the stale token unconsumed. -/
theorem receiver_stops_at_first_build_finished_witness :
    runAndLog defaultBackendOps DefaultBackend.new
        ([BuildSignal.analysis
            { label := 0, node := { deps := [] },
              duration := { user := 3, total := 3 }, span_id := none }] ++
          BuildSignal.buildFinished :: [BuildSignal.buildFinished]) =
      match defaultBackendOps.finish
          (DefaultBackend.new.process_node (NodeKey.analysis 0) none
            { user := 3, total := 3 } [] none) with
      | .error e => .error e
      | .ok info =>
        .ok (mkReport info,
          [BuildSignal.analysis
            { label := 0, node := { deps := [] },
              duration := { user := 3, total := 3 },
              span_id := none }].map ReceiverEvent.dispatched ++
            [ReceiverEvent.finished, ReceiverEvent.emitted (mkReport info)],
          [BuildSignal.buildFinished]) := by
  exact receiver_stops_at_first_build_finished defaultBackendOps
    [BuildSignal.buildFinished]
    [BuildSignal.analysis
      { label := 0, node := { deps := [] },
        duration := { user := 3, total := 3 }, span_id := none }]
    (by decide) DefaultBackend.new
    (DefaultBackend.new.process_node (NodeKey.analysis 0) none
      { user := 3, total := 3 } [] none) rfl

/-- `getD` after `set` at a different index is unchanged. -/
theorem getD_set_ne {α : Type} :
    ∀ (l : List α) (i j : Nat) (v d : α), i ≠ j →
      (l.set i v).getD j d = l.getD j d := by
  intro l
  induction l with
  | nil => intro i j v d _; simp
  | cons x xs ih =>
    intro i j v d h
    cases i with
    | zero =>
      cases j with
      | zero => exact absurd rfl h
      | succ j => simp
    | succ i =>
      cases j with
      | zero => simp
      | succ j => simpa using ih i j v d (fun hc => h (by rw [hc]))

/-- `getD` after `set` either is unchanged or returns the new value at the
written index. -/
theorem getD_set_cases {α : Type} :
    ∀ (l : List α) (i j : Nat) (v d : α),
      (l.set j v).getD i d = l.getD i d ∨
        ((l.set j v).getD i d = v ∧ i = j) := by
  intro l
  induction l with
  | nil => intro i j v d; left; simp
  | cons x xs ih =>
    intro i j v d
    cases j with
    | zero =>
      cases i with
      | zero => right; exact ⟨by simp, rfl⟩
      | succ i => left; simp
    | succ j =>
      cases i with
      | zero => left; simp
      | succ i =>
        rcases ih i j v d with h | ⟨h, rfl⟩
        · left; simpa using h
        · right; exact ⟨by simpa using h, rfl⟩

/-- Once a slot is assigned, the DFS loop never changes it. -/
theorem visitLoop_mono (g : MaterializedGraph) (analysis : Nat) :
    ∀ (fuel : Nat) (queue : List Nat) (fa : List (Option Nat)) (i a : Nat),
      fa.getD i none = some a →
      (visitLoop g analysis fuel queue fa).getD i none = some a := by
  intro fuel
  induction fuel with
  | zero => intro queue fa i a h; simpa [visitLoop] using h
  | succ fuel ih =>
    intro queue fa i a h
    cases queue with
    | nil => simpa [visitLoop] using h
    | cons j rest =>
      cases hfaj : fa.getD j none with
      | some w =>
        rw [show visitLoop g analysis (fuel + 1) (j :: rest) fa =
          visitLoop g analysis fuel rest fa from by rw [visitLoop, hfaj]; rfl]
        exact ih rest fa i a h
      | none =>
        cases hkey : g.keys.get? j with
        | none =>
          rw [show visitLoop g analysis (fuel + 1) (j :: rest) fa =
            visitLoop g analysis fuel rest fa from by
              rw [visitLoop, hfaj, hkey]; rfl]
          exact ih rest fa i a h
        | some k =>
          cases k with
          | analysis lab =>
            rw [show visitLoop g analysis (fuel + 1) (j :: rest) fa =
              visitLoop g analysis fuel rest fa from by
                rw [visitLoop, hfaj, hkey]; rfl]
            exact ih rest fa i a h
          | actionKey ak =>
            rw [show visitLoop g analysis (fuel + 1) (j :: rest) fa =
              visitLoop g analysis fuel ((g.edgesOf j).reverse ++ rest)
                (fa.set j (some analysis)) from by
                  rw [visitLoop, hfaj, hkey]; rfl]
            refine ih _ _ i a ?_
            rcases getD_set_cases fa i j (some analysis) none with hc | ⟨hc, rfl⟩
            · rw [hc]; exact h
            · rw [hfaj] at h; cases h
          | transitiveSetProjection tk =>
            rw [show visitLoop g analysis (fuel + 1) (j :: rest) fa =
              visitLoop g analysis fuel ((g.edgesOf j).reverse ++ rest)
                (fa.set j (some analysis)) from by
                  rw [visitLoop, hfaj, hkey]; rfl]
            refine ih _ _ i a ?_
            rcases getD_set_cases fa i j (some analysis) none with hc | ⟨hc, rfl⟩
            · rw [hc]; exact h
            · rw [hfaj] at h; cases h

/-- The DFS loop never assigns a slot whose key is an `Analysis` vertex. -/
theorem visitLoop_analysis_untouched (g : MaterializedGraph) (analysis : Nat) :
    ∀ (fuel : Nat) (queue : List Nat) (fa : List (Option Nat)) (i lab : Nat),
      g.keys.get? i = some (NodeKey.analysis lab) →
      (visitLoop g analysis fuel queue fa).getD i none = fa.getD i none := by
  intro fuel
  induction fuel with
  | zero => intro queue fa i lab _; simp [visitLoop]
  | succ fuel ih =>
    intro queue fa i lab hi
    cases queue with
    | nil => simp [visitLoop]
    | cons j rest =>
      cases hfaj : fa.getD j none with
      | some w =>
        rw [show visitLoop g analysis (fuel + 1) (j :: rest) fa =
          visitLoop g analysis fuel rest fa from by rw [visitLoop, hfaj]; rfl]
        exact ih rest fa i lab hi
      | none =>
        cases hkey : g.keys.get? j with
        | none =>
          rw [show visitLoop g analysis (fuel + 1) (j :: rest) fa =
            visitLoop g analysis fuel rest fa from by
              rw [visitLoop, hfaj, hkey]; rfl]
          exact ih rest fa i lab hi
        | some k =>
          cases k with
          | analysis lab₂ =>
            rw [show visitLoop g analysis (fuel + 1) (j :: rest) fa =
              visitLoop g analysis fuel rest fa from by
                rw [visitLoop, hfaj, hkey]; rfl]
            exact ih rest fa i lab hi
          | actionKey ak =>
            have hij : i ≠ j := by
              intro hc
              rw [hc, hkey] at hi
              cases hi
            rw [show visitLoop g analysis (fuel + 1) (j :: rest) fa =
              visitLoop g analysis fuel ((g.edgesOf j).reverse ++ rest)
                (fa.set j (some analysis)) from by
                  rw [visitLoop, hfaj, hkey]; rfl]
            rw [ih _ _ i lab hi]
            exact getD_set_ne fa j i (some analysis) none
              (fun hc => hij hc.symm)
          | transitiveSetProjection tk =>
            have hij : i ≠ j := by
              intro hc
              rw [hc, hkey] at hi
              cases hi
            rw [show visitLoop g analysis (fuel + 1) (j :: rest) fa =
              visitLoop g analysis fuel ((g.edgesOf j).reverse ++ rest)
                (fa.set j (some analysis)) from by
                  rw [visitLoop, hfaj, hkey]; rfl]
            rw [ih _ _ i lab hi]
            exact getD_set_ne fa j i (some analysis) none
              (fun hc => hij hc.symm)

/-- Every value the DFS loop writes is the gating analysis it was started
with. -/
theorem visitLoop_writes_analysis (g : MaterializedGraph) (analysis : Nat) :
    ∀ (fuel : Nat) (queue : List Nat) (fa : List (Option Nat)) (i a : Nat),
      (visitLoop g analysis fuel queue fa).getD i none = some a →
      fa.getD i none = some a ∨ a = analysis := by
  intro fuel
  induction fuel with
  | zero => intro queue fa i a h; left; simpa [visitLoop] using h
  | succ fuel ih =>
    intro queue fa i a h
    cases queue with
    | nil => left; simpa [visitLoop] using h
    | cons j rest =>
      cases hfaj : fa.getD j none with
      | some w =>
        rw [show visitLoop g analysis (fuel + 1) (j :: rest) fa =
          visitLoop g analysis fuel rest fa from by rw [visitLoop, hfaj]; rfl] at h
        exact ih rest fa i a h
      | none =>
        cases hkey : g.keys.get? j with
        | none =>
          rw [show visitLoop g analysis (fuel + 1) (j :: rest) fa =
            visitLoop g analysis fuel rest fa from by
              rw [visitLoop, hfaj, hkey]; rfl] at h
          exact ih rest fa i a h
        | some k =>
          cases k with
          | analysis lab =>
            rw [show visitLoop g analysis (fuel + 1) (j :: rest) fa =
              visitLoop g analysis fuel rest fa from by
                rw [visitLoop, hfaj, hkey]; rfl] at h
            exact ih rest fa i a h
          | actionKey ak =>
            rw [show visitLoop g analysis (fuel + 1) (j :: rest) fa =
              visitLoop g analysis fuel ((g.edgesOf j).reverse ++ rest)
                (fa.set j (some analysis)) from by
                  rw [visitLoop, hfaj, hkey]; rfl] at h
            rcases ih _ _ i a h with hset | heq
            · rcases getD_set_cases fa i j (some analysis) none with
                hc | ⟨hc, rfl⟩
              · left; rw [← hc]; exact hset
              · right; rw [hset] at hc; exact Option.some.inj hc
            · right; exact heq
          | transitiveSetProjection tk =>
            rw [show visitLoop g analysis (fuel + 1) (j :: rest) fa =
              visitLoop g analysis fuel ((g.edgesOf j).reverse ++ rest)
                (fa.set j (some analysis)) from by
                  rw [visitLoop, hfaj, hkey]; rfl] at h
            rcases ih _ _ i a h with hset | heq
            · rcases getD_set_cases fa i j (some analysis) none with
                hc | ⟨hc, rfl⟩
              · left; rw [← hc]; exact hset
              · right; rw [hset] at hc; exact Option.some.inj hc
            · right; exact heq

/-- `visitArtifacts` preserves assigned slots. -/
theorem visitArtifacts_mono (g : MaterializedGraph) (analysis fuel : Nat) :
    ∀ (artifacts : List NodeKey) (fa : List (Option Nat)) (i a : Nat),
      fa.getD i none = some a →
      (visitArtifacts g analysis fuel artifacts fa).getD i none = some a := by
  intro artifacts
  induction artifacts with
  | nil => intro fa i a h; exact h
  | cons art rest ih =>
    intro fa i a h
    show (visitArtifacts g analysis fuel rest
      (match keyIndex g.keys art with
       | none => fa
       | some x => visitLoop g analysis fuel [x] fa)).getD i none = some a
    cases hki : keyIndex g.keys art with
    | none => exact ih fa i a h
    | some x => exact ih _ i a (visitLoop_mono g analysis fuel [x] fa i a h)

/-- `visitArtifacts` never assigns an `Analysis` vertex. -/
theorem visitArtifacts_analysis_untouched (g : MaterializedGraph)
    (analysis fuel : Nat) :
    ∀ (artifacts : List NodeKey) (fa : List (Option Nat)) (i lab : Nat),
      g.keys.get? i = some (NodeKey.analysis lab) →
      (visitArtifacts g analysis fuel artifacts fa).getD i none =
        fa.getD i none := by
  intro artifacts
  induction artifacts with
  | nil => intro fa i lab _; rfl
  | cons art rest ih =>
    intro fa i lab hi
    show (visitArtifacts g analysis fuel rest
      (match keyIndex g.keys art with
       | none => fa
       | some x => visitLoop g analysis fuel [x] fa)).getD i none = _
    cases hki : keyIndex g.keys art with
    | none => exact ih fa i lab hi
    | some x =>
      rw [ih _ i lab hi]
      exact visitLoop_analysis_untouched g analysis fuel [x] fa i lab hi

/-- Every value `visitArtifacts` writes is its gating analysis. -/
theorem visitArtifacts_writes_analysis (g : MaterializedGraph)
    (analysis fuel : Nat) :
    ∀ (artifacts : List NodeKey) (fa : List (Option Nat)) (i a : Nat),
      (visitArtifacts g analysis fuel artifacts fa).getD i none = some a →
      fa.getD i none = some a ∨ a = analysis := by
  intro artifacts
  induction artifacts with
  | nil => intro fa i a h; exact .inl h
  | cons art rest ih =>
    intro fa i a h
    rw [show visitArtifacts g analysis fuel (art :: rest) fa =
      visitArtifacts g analysis fuel rest
        (match keyIndex g.keys art with
         | none => fa
         | some x => visitLoop g analysis fuel [x] fa) from rfl] at h
    cases hki : keyIndex g.keys art with
    | none =>
      rw [hki] at h
      exact ih fa i a h
    | some x =>
      rw [hki] at h
      rcases ih _ i a h with hl | hr
      · exact visitLoop_writes_analysis g analysis fuel [x] fa i a hl
      · exact .inr hr

/-- `propagateVisibility` preserves assigned slots. -/
theorem propagateVisibility_mono (g : MaterializedGraph) (fuel : Nat) :
    ∀ (visibilities : List VisibilityEdge) (fa : List (Option Nat)) (i a : Nat),
      fa.getD i none = some a →
      (propagateVisibility g fuel visibilities fa).getD i none = some a := by
  intro visibilities
  induction visibilities with
  | nil => intro fa i a h; exact h
  | cons v rest ih =>
    intro fa i a h
    show (propagateVisibility g fuel rest
      (match keyIndex g.keys v.node with
       | none => fa
       | some analysis =>
         visitArtifacts g analysis fuel v.makes_visible fa)).getD i none = some a
    cases hki : keyIndex g.keys v.node with
    | none => exact ih fa i a h
    | some analysis =>
      exact ih _ i a (visitArtifacts_mono g analysis fuel v.makes_visible fa i a h)

/-- `propagateVisibility` never assigns an `Analysis` vertex. -/
theorem propagateVisibility_analysis_untouched (g : MaterializedGraph)
    (fuel : Nat) :
    ∀ (visibilities : List VisibilityEdge) (fa : List (Option Nat)) (i lab : Nat),
      g.keys.get? i = some (NodeKey.analysis lab) →
      (propagateVisibility g fuel visibilities fa).getD i none =
        fa.getD i none := by
  intro visibilities
  induction visibilities with
  | nil => intro fa i lab _; rfl
  | cons v rest ih =>
    intro fa i lab hi
    show (propagateVisibility g fuel rest
      (match keyIndex g.keys v.node with
       | none => fa
       | some analysis =>
         visitArtifacts g analysis fuel v.makes_visible fa)).getD i none = _
    cases hki : keyIndex g.keys v.node with
    | none => exact ih fa i lab hi
    | some analysis =>
      rw [ih _ i lab hi]
      exact visitArtifacts_analysis_untouched g analysis fuel
        v.makes_visible fa i lab hi

/-- Every value `propagateVisibility` writes is the index of the analysis
vertex of one of the visibility edges. -/
theorem propagateVisibility_writes_analysis (g : MaterializedGraph)
    (fuel : Nat) :
    ∀ (visibilities : List VisibilityEdge) (fa : List (Option Nat)) (i a : Nat),
      (propagateVisibility g fuel visibilities fa).getD i none = some a →
      fa.getD i none = some a ∨
        ∃ v ∈ visibilities, keyIndex g.keys v.node = some a := by
  intro visibilities
  induction visibilities with
  | nil => intro fa i a h; exact .inl h
  | cons v rest ih =>
    intro fa i a h
    rw [show propagateVisibility g fuel (v :: rest) fa =
      propagateVisibility g fuel rest
        (match keyIndex g.keys v.node with
         | none => fa
         | some analysis =>
           visitArtifacts g analysis fuel v.makes_visible fa) from rfl] at h
    cases hki : keyIndex g.keys v.node with
    | none =>
      rw [hki] at h
      rcases ih fa i a h with hl | ⟨v₂, hv₂, hkey₂⟩
      · exact .inl hl
      · exact .inr ⟨v₂, List.mem_cons_of_mem v hv₂, hkey₂⟩
    | some analysis =>
      rw [hki] at h
      rcases ih _ i a h with hl | ⟨v₂, hv₂, hkey₂⟩
      · rcases visitArtifacts_writes_analysis g analysis fuel
          v.makes_visible fa i a hl with hfa | rfl
        · exact .inl hfa
        · exact .inr ⟨v, List.mem_cons_self v rest, hki⟩
      · exact .inr ⟨v₂, List.mem_cons_of_mem v hv₂, hkey₂⟩

/-- Membership in the synthetic-edge augmentation. -/
theorem addFirstAnalysisEdges_mem (edgesList : List (List Nat))
    (fa : List (Option Nat)) (i a : Nat) (h : i < edgesList.length) :
    a ∈ (addFirstAnalysisEdges edgesList fa).getD i [] ↔
      a ∈ edgesList.getD i [] ∨ fa.getD i none = some a := by
  have hget : (addFirstAnalysisEdges edgesList fa).get? i =
      some (edgesList.getD i [] ++ (fa.getD i none).toList) := by
    unfold addFirstAnalysisEdges
    rw [List.get?_map, List.get?_range h]
    rfl
  rw [show (addFirstAnalysisEdges edgesList fa).getD i [] =
    edgesList.getD i [] ++ (fa.getD i none).toList from by
      rw [show (addFirstAnalysisEdges edgesList fa).getD i [] =
        ((addFirstAnalysisEdges edgesList fa).get? i).getD [] from rfl, hget]
      rfl]
  constructor
  · intro hm
    rcases List.mem_append.mp hm with hl | hr
    · exact .inl hl
    · right
      cases hfa : fa.getD i none with
      | none => rw [hfa] at hr; cases hr
      | some b =>
        rw [hfa] at hr
        simp only [Option.toList_some, List.mem_singleton] at hr
        rw [hr]
  · intro hm
    rcases hm with hl | hr
    · exact List.mem_append.mpr (.inl hl)
    · refine List.mem_append.mpr (.inr ?_)
      rw [hr]
      simp

/-- C7: in the longest-path backend's first-analysis propagation, an
assigned `first_analysis` slot is never reassigned (so every vertex is
assigned at most once), a vertex whose key is an `Analysis` variant is
never assigned one, every assigned value is the analysis vertex of one of
the recorded visibility edges, and the synthetic edges are added exactly
from vertices whose slot is set, pointing to their gating analysis
vertex. -/
theorem first_analysis_propagation_spec (g : MaterializedGraph)
    (visibilities : List VisibilityEdge) (fuel : Nat)
    (fa0 : List (Option Nat)) :
    (∀ i a, fa0.getD i none = some a →
      (propagateVisibility g fuel visibilities fa0).getD i none = some a) ∧
    (∀ i lab, g.keys.get? i = some (NodeKey.analysis lab) →
      (propagateVisibility g fuel visibilities fa0).getD i none =
        fa0.getD i none) ∧
    (∀ i a,
      (propagateVisibility g fuel visibilities fa0).getD i none = some a →
      fa0.getD i none = some a ∨
        ∃ v ∈ visibilities, keyIndex g.keys v.node = some a) ∧
    (∀ (edgesList : List (List Nat)) (fa : List (Option Nat)) (i a : Nat),
      i < edgesList.length →
      (a ∈ (addFirstAnalysisEdges edgesList fa).getD i [] ↔
        a ∈ edgesList.getD i [] ∨ fa.getD i none = some a)) :=
  ⟨fun i a h => propagateVisibility_mono g fuel visibilities fa0 i a h,
   fun i lab h =>
     propagateVisibility_analysis_untouched g fuel visibilities fa0 i lab h,
   fun i a h =>
     propagateVisibility_writes_analysis g fuel visibilities fa0 i a h,
   fun edgesList fa i a h => addFirstAnalysisEdges_mem edgesList fa i a h⟩

/-- Witness for C7 on a two-vertex graph: the analysis vertex stays
unassigned, an already-assigned slot persists, the assigned slot of the
action vertex names the analysis vertex of the only visibility edge, and
the augmented edge list contains exactly the original edges plus the
synthetic edge. -/
theorem first_analysis_propagation_spec_witness :
    ((propagateVisibility
        { keys := [NodeKey.analysis 0,
            NodeKey.actionKey { owner := BaseDeferredKey.targetLabel 0, id := 1 }],
          edgesList := [[], [0]] } 10
        [{ node := NodeKey.analysis 0,
           makes_visible := [NodeKey.actionKey
             { owner := BaseDeferredKey.targetLabel 0, id := 1 }] }]
        [none, some 0]).getD 1 none = some 0) ∧
    ((propagateVisibility
        { keys := [NodeKey.analysis 0,
            NodeKey.actionKey { owner := BaseDeferredKey.targetLabel 0, id := 1 }],
          edgesList := [[], [0]] } 10
        [{ node := NodeKey.analysis 0,
           makes_visible := [NodeKey.actionKey
             { owner := BaseDeferredKey.targetLabel 0, id := 1 }] }]
        [none, none]).getD 0 none = ([none, none] : List (Option Nat)).getD 0 none) ∧
    (([none, none] : List (Option Nat)).getD 1 none = some 0 ∨
      ∃ v ∈ ([{ node := NodeKey.analysis 0,
                makes_visible := [NodeKey.actionKey
                  { owner := BaseDeferredKey.targetLabel 0, id := 1 }] }] :
          List VisibilityEdge),
        keyIndex [NodeKey.analysis 0,
          NodeKey.actionKey { owner := BaseDeferredKey.targetLabel 0, id := 1 }]
          v.node = some 0) ∧
    (3 ∈ (addFirstAnalysisEdges [[5]] [some 3]).getD 0 [] ↔
      3 ∈ ([[5]] : List (List Nat)).getD 0 [] ∨
        ([some 3] : List (Option Nat)).getD 0 none = some 3) := by
  refine ⟨?_, ?_, ?_, ?_⟩
  · exact (first_analysis_propagation_spec
      { keys := [NodeKey.analysis 0,
          NodeKey.actionKey { owner := BaseDeferredKey.targetLabel 0, id := 1 }],
        edgesList := [[], [0]] }
      [{ node := NodeKey.analysis 0,
         makes_visible := [NodeKey.actionKey
           { owner := BaseDeferredKey.targetLabel 0, id := 1 }] }] 10
      [none, some 0]).1 1 0 (by decide)
  · exact (first_analysis_propagation_spec
      { keys := [NodeKey.analysis 0,
          NodeKey.actionKey { owner := BaseDeferredKey.targetLabel 0, id := 1 }],
        edgesList := [[], [0]] }
      [{ node := NodeKey.analysis 0,
         makes_visible := [NodeKey.actionKey
           { owner := BaseDeferredKey.targetLabel 0, id := 1 }] }] 10
      [none, none]).2.1 0 0 (by decide)
  · exact (first_analysis_propagation_spec
      { keys := [NodeKey.analysis 0,
          NodeKey.actionKey { owner := BaseDeferredKey.targetLabel 0, id := 1 }],
        edgesList := [[], [0]] }
      [{ node := NodeKey.analysis 0,
         makes_visible := [NodeKey.actionKey
           { owner := BaseDeferredKey.targetLabel 0, id := 1 }] }] 10
      [none, none]).2.2.1 1 0 (by decide)
  · exact (first_analysis_propagation_spec
      { keys := [NodeKey.analysis 0,
          NodeKey.actionKey { owner := BaseDeferredKey.targetLabel 0, id := 1 }],
        edgesList := [[], [0]] }
      [{ node := NodeKey.analysis 0,
         makes_visible := [NodeKey.actionKey
           { owner := BaseDeferredKey.targetLabel 0, id := 1 }] }] 10
      [none, none]).2.2.2 [[5]] [some 3] 0 3 (by decide)

section CriticalPathExtraction

variable {K V : Type} [DecidableEq K]

/-- An emitted walk entry is sound for the map: its key resolves to a node
whose value and cumulative duration it carries. -/
def CumSound (m : List (K × CriticalPathNode K V)) (e : K × V × Nat) : Prop :=
  ∃ n, mapGet m e.1 = some n ∧ e.2.1 = n.value ∧ e.2.2 = n.duration

/-- Root-to-terminal adjacency: the successor's node names the predecessor
through its `prev` pointer. -/
def PrevAdj (m : List (K × CriticalPathNode K V)) (a b : K × V × Nat) : Prop :=
  ∃ n, mapGet m b.1 = some n ∧ n.prev = some a.1

/-- Adjacency of the final path: `prev` linkage plus the per-entry duration
being the saturating difference of the two cumulative durations. -/
def DeltaAdj (m : List (K × CriticalPathNode K V)) (a b : K × V × Nat) : Prop :=
  ∃ na nb, mapGet m a.1 = some na ∧ mapGet m b.1 = some nb ∧
    nb.prev = some a.1 ∧ b.2.2 = nb.duration - na.duration

/-- Nondecreasing cumulative durations, read back through the map. -/
def MapLe (m : List (K × CriticalPathNode K V)) (a b : K × V × Nat) : Prop :=
  ∀ na nb, mapGet m a.1 = some na → mapGet m b.1 = some nb →
    na.duration ≤ nb.duration

/-- Shape of the first emitted walk entry. -/
theorem cpWalk_head_eq (m : List (K × CriticalPathNode K V)) :
    ∀ (fuel : Nat) (ok : Option K) (e : K × V × Nat) (t : List (K × V × Nat)),
      cpWalk m fuel ok = e :: t →
      ∃ k n, ok = some k ∧ mapGet m k = some n ∧
        e = (k, n.value, n.duration) := by
  intro fuel ok e t h
  cases fuel with
  | zero => simp [cpWalk] at h
  | succ fuel =>
    cases ok with
    | none => simp [cpWalk] at h
    | some k =>
      cases hk : mapGet m k with
      | none => rw [cpWalk, hk] at h; cases h
      | some n =>
        rw [cpWalk, hk] at h
        exact ⟨k, n, rfl, hk, (List.cons.inj h).1.symm⟩

/-- Every emitted walk entry is sound for the map. -/
theorem cpWalk_sound (m : List (K × CriticalPathNode K V)) :
    ∀ (fuel : Nat) (ok : Option K) (e : K × V × Nat),
      e ∈ cpWalk m fuel ok → CumSound m e := by
  intro fuel
  induction fuel with
  | zero => intro ok e h; simp [cpWalk] at h
  | succ fuel ih =>
    intro ok e h
    cases ok with
    | none => simp [cpWalk] at h
    | some k =>
      cases hk : mapGet m k with
      | none => rw [cpWalk, hk] at h; cases h
      | some n =>
        rw [cpWalk, hk] at h
        rcases List.mem_cons.mp h with rfl | h
        · exact ⟨n, hk, rfl, rfl⟩
        · exact ih n.prev e h

/-- Consecutive walk entries are linked by `prev` pointers (in emission
order the earlier entry's node points at the later entry). -/
theorem cpWalk_chain (m : List (K × CriticalPathNode K V)) :
    ∀ (fuel : Nat) (ok : Option K),
      List.Chain' (fun a b => PrevAdj m b a) (cpWalk m fuel ok) := by
  intro fuel
  induction fuel with
  | zero => intro ok; simp [cpWalk]
  | succ fuel ih =>
    intro ok
    cases ok with
    | none => simp [cpWalk]
    | some k =>
      cases hk : mapGet m k with
      | none => rw [cpWalk, hk]; simp
      | some n =>
        rw [cpWalk, hk]
        refine List.chain'_cons'.mpr ⟨?_, ih n.prev⟩
        intro b hb
        cases htail : cpWalk m fuel n.prev with
        | nil => rw [htail] at hb; cases hb
        | cons e t =>
          rw [htail] at hb
          simp only [List.head?_cons, Option.mem_def, Option.some.injEq] at hb
          rcases cpWalk_head_eq m fuel n.prev e t htail with ⟨k', n', hok, _, he⟩
          exact ⟨n, hk, by rw [← hb, he, hok]⟩

/-- When the walk ends with fuel to spare, the last emitted entry is a
root: its `prev` is `none` or points outside the map. -/
theorem cpWalk_last_complete (m : List (K × CriticalPathNode K V)) :
    ∀ (fuel : Nat) (ok : Option K),
      (cpWalk m fuel ok).length < fuel →
      ∀ e, (cpWalk m fuel ok).getLast? = some e →
        ∃ n, mapGet m e.1 = some n ∧
          ∀ p, n.prev = some p → mapGet m p = none := by
  intro fuel
  induction fuel with
  | zero => intro ok h e he; simp [cpWalk] at he
  | succ fuel ih =>
    intro ok hlen e he
    cases ok with
    | none => simp [cpWalk] at he
    | some k =>
      cases hk : mapGet m k with
      | none =>
        rw [show cpWalk m (fuel + 1) (some k) = [] from by
          rw [cpWalk, hk]] at he
        cases he
      | some n =>
        have hwalk : cpWalk m (fuel + 1) (some k) =
            (k, n.value, n.duration) :: cpWalk m fuel n.prev := by
          rw [cpWalk, hk]
        rw [hwalk] at he hlen
        cases htail : cpWalk m fuel n.prev with
        | nil =>
          rw [htail] at he
          have he' : (k, n.value, n.duration) = e := by
            simpa using he
          subst he'
          refine ⟨n, hk, ?_⟩
          intro p hp
          have hfuel : 0 < fuel := by
            rw [htail] at hlen
            simpa using hlen
          rw [hp] at htail
          cases fuel with
          | zero => cases hfuel
          | succ fuel₂ =>
            cases hkp : mapGet m p with
            | none => rfl
            | some np =>
              rw [show cpWalk m (fuel₂ + 1) (some p) =
                (p, np.value, np.duration) :: cpWalk m fuel₂ np.prev from by
                  rw [cpWalk, hkp]] at htail
              cases htail
        | cons e₂ t₂ =>
          rw [htail] at he
          rw [show ((k, n.value, n.duration) :: e₂ :: t₂).getLast? =
            (e₂ :: t₂).getLast? from List.getLast?_cons_cons] at he
          have hlen₂ : (cpWalk m fuel n.prev).length < fuel := by
            rw [htail]
            rw [htail] at hlen
            simpa using Nat.lt_of_succ_lt_succ hlen
          exact ih n.prev hlen₂ e (by rw [htail]; exact he)

/-- `diffAux` keeps keys and values, positionally. -/
theorem diffAux_map_fst :
    ∀ (l : List (K × V × Nat)) (prev : Nat),
      (diffAux prev l).map (fun e => e.1) = l.map (fun e => e.1) := by
  intro l
  induction l with
  | nil => intro prev; rfl
  | cons e rest ih =>
    intro prev
    obtain ⟨k, v, c⟩ := e
    simp [diffAux, ih]

/-- `diffAdjacent` keeps keys and values, positionally. -/
theorem diffAdjacent_map_fst (l : List (K × V × Nat)) :
    (diffAdjacent l).map (fun e => e.1) = l.map (fun e => e.1) := by
  cases l with
  | nil => rfl
  | cons e rest =>
    obtain ⟨k, v, c⟩ := e
    simp [diffAdjacent, diffAux_map_fst]

/-- `diffAux` preserves length. -/
theorem diffAux_length :
    ∀ (l : List (K × V × Nat)) (prev : Nat),
      (diffAux prev l).length = l.length := by
  intro l
  induction l with
  | nil => intro prev; rfl
  | cons e rest ih =>
    intro prev
    obtain ⟨k, v, c⟩ := e
    simp [diffAux, ih]

/-- `diffAdjacent` preserves length. -/
theorem diffAdjacent_length (l : List (K × V × Nat)) :
    (diffAdjacent l).length = l.length := by
  cases l with
  | nil => rfl
  | cons e rest =>
    obtain ⟨k, v, c⟩ := e
    simp [diffAdjacent, diffAux_length]

/-- `diffAdjacent` keeps the first element unchanged. -/
theorem diffAdjacent_head (l : List (K × V × Nat)) :
    (diffAdjacent l).head? = l.head? := by
  cases l with
  | nil => rfl
  | cons e rest =>
    obtain ⟨k, v, c⟩ := e
    rfl

/-- The delta chain produced by `diffAux` from a sound prev-linked list. -/
theorem diffAux_chain (m : List (K × CriticalPathNode K V)) :
    ∀ (l : List (K × V × Nat)) (k : K) (v : V) (c : Nat)
      (n : CriticalPathNode K V),
      mapGet m k = some n → c = n.duration →
      (∀ e ∈ l, CumSound m e) →
      List.Chain' (PrevAdj m) ((k, v, c) :: l) →
      List.Chain' (DeltaAdj m) ((k, v, c) :: diffAux c l) := by
  intro l
  induction l with
  | nil => intro k v c n _ _ _ _; simp [diffAux]
  | cons e rest ih =>
    intro k v c n hk hc hsound hchain
    obtain ⟨k', v', c'⟩ := e
    rcases hsound (k', v', c') (List.mem_cons_self _ _) with ⟨n', hk', _, hc'⟩
    have hadj : PrevAdj m (k, v, c) (k', v', c') :=
      (List.chain'_cons.mp hchain).1
    have hchain' : List.Chain' (PrevAdj m) ((k', v', c') :: rest) :=
      (List.chain'_cons.mp hchain).2
    have htail : List.Chain' (DeltaAdj m) ((k', v', c') :: diffAux c' rest) :=
      ih k' v' c' n' hk' hc'
        (fun e he => hsound e (List.mem_cons_of_mem _ he)) hchain'
    show List.Chain' (DeltaAdj m)
      ((k, v, c) :: (k', v', c' - c) :: diffAux c' rest)
    refine List.chain'_cons.mpr ⟨?_, ?_⟩
    · rcases hadj with ⟨n₂, hk₂, hprev₂⟩
      rw [hk'] at hk₂
      have hn₂ : n₂ = n' := (Option.some.inj hk₂).symm
      subst hn₂
      refine ⟨n, n₂, hk, hk', hprev₂, ?_⟩
      show c' - c = n₂.duration - n.duration
      have hc2 : c' = n₂.duration := hc'
      rw [hc, hc2]
    · rw [List.chain'_cons'] at htail ⊢
      exact htail

/-- The delta chain of `diffAdjacent` over a sound prev-linked list. -/
theorem diffAdjacent_chain (m : List (K × CriticalPathNode K V))
    (l : List (K × V × Nat)) (hsound : ∀ e ∈ l, CumSound m e)
    (hchain : List.Chain' (PrevAdj m) l) :
    List.Chain' (DeltaAdj m) (diffAdjacent l) := by
  cases l with
  | nil => simp [diffAdjacent]
  | cons e rest =>
    obtain ⟨k, v, c⟩ := e
    rcases hsound (k, v, c) (List.mem_cons_self _ _) with ⟨n, hk, _, hc⟩
    exact diffAux_chain m rest k v c n hk hc
      (fun e he => hsound e (List.mem_cons_of_mem _ he)) hchain

/-- Peeling the head off a `getLast?`-with-default computation. -/
theorem getLast?_cons_getD :
    ∀ (L : List Nat) (c c' : Nat),
      ((c' :: L).getLast?).getD c = (L.getLast?).getD c' := by
  intro L
  induction L with
  | nil => intro c c'; rfl
  | cons d L₂ ih =>
    intro c c'
    rw [List.getLast?_cons_cons]
    have h₁ := ih c d
    have h₂ := ih c' d
    rw [show ((d :: L₂).getLast?).getD c = (L₂.getLast?).getD d from ih c d,
      show ((d :: L₂).getLast?).getD c' = (L₂.getLast?).getD d from ih c' d]

/-- Telescoping sum of `diffAux` under nondecreasing cumulative
durations. -/
theorem diffAux_sum :
    ∀ (l : List (K × V × Nat)) (k : K) (v : V) (c : Nat),
      List.Chain' (fun a b => a.2.2 ≤ b.2.2) ((k, v, c) :: l) →
      c + ((diffAux c l).map (fun e => e.2.2)).sum =
        ((l.map (fun e => e.2.2)).getLast?).getD c := by
  intro l
  induction l with
  | nil => intro k v c _; simp [diffAux]
  | cons e rest ih =>
    intro k v c hchain
    obtain ⟨k', v', c'⟩ := e
    have hpc : c ≤ c' := (List.chain'_cons.mp hchain).1
    have hrest : List.Chain' (fun a b => a.2.2 ≤ b.2.2)
        ((k', v', c') :: rest) := (List.chain'_cons.mp hchain).2
    have hih := ih k' v' c' hrest
    show c + ((c' - c) + ((diffAux c' rest).map (fun e => e.2.2)).sum) = _
    simp only [List.map_cons]
    rw [getLast?_cons_getD]
    omega

/-- Sum of per-entry durations after the adjacent-difference pass equals the
last cumulative duration, under nondecreasing cumulatives. -/
theorem diffAdjacent_sum (l : List (K × V × Nat))
    (hchain : List.Chain' (fun a b => a.2.2 ≤ b.2.2) l) :
    ((diffAdjacent l).map (fun e => e.2.2)).sum =
      ((l.map (fun e => e.2.2)).getLast?).getD 0 := by
  cases l with
  | nil => rfl
  | cons e rest =>
    obtain ⟨k, v, c⟩ := e
    have := diffAux_sum rest k v c hchain
    simp only [List.map_cons, getLast?_cons_getD]
    simpa [diffAdjacent] using this

/-- A key-only chain on the adjacent-difference output lifts back to the
input list, whose keys agree positionally. -/
theorem chain_keyR_diffAux {R : K → K → Prop} :
    ∀ (l : List (K × V × Nat)) (k : K) (v : V) (c c₂ x : Nat),
      List.Chain' (fun a b => R a.1 b.1) ((k, v, c₂) :: diffAux c l) →
      List.Chain' (fun a b => R a.1 b.1) ((k, v, x) :: l) := by
  intro l
  induction l with
  | nil => intro k v c c₂ x _; simp
  | cons e rest ih =>
    intro k v c c₂ x hchain
    obtain ⟨k', v', c'⟩ := e
    have h₁ : R k k' := (List.chain'_cons.mp hchain).1
    have h₂ := (List.chain'_cons.mp hchain).2
    exact List.chain'_cons.mpr ⟨h₁, ih k' v' c' (c' - c) c' h₂⟩

/-- A key-only chain on `diffAdjacent l` lifts back to `l`. -/
theorem chain_keyR_diffAdjacent {R : K → K → Prop}
    (l : List (K × V × Nat))
    (h : List.Chain' (fun a b => R a.1 b.1) (diffAdjacent l)) :
    List.Chain' (fun a b => R a.1 b.1) l := by
  cases l with
  | nil => simp
  | cons e rest =>
    obtain ⟨k, v, c⟩ := e
    exact chain_keyR_diffAux rest k v c c c h

/-- `getLast?` commutes with `map`. -/
theorem list_getLast?_map {α β : Type} (f : α → β) :
    ∀ l : List α, (l.map f).getLast? = (l.getLast?).map f := by
  intro l
  induction l with
  | nil => rfl
  | cons a t ih =>
    cases t with
    | nil => rfl
    | cons b t₂ =>
      simp only [List.map_cons, List.getLast?_cons_cons]
      simpa using ih

/-- A chain can be transported along a pairwise implication that may use
membership. -/
theorem chain'_imp_mem {α : Type} {R S : α → α → Prop} :
    ∀ l : List α, (∀ a ∈ l, ∀ b ∈ l, R a b → S a b) →
      List.Chain' R l → List.Chain' S l := by
  intro l
  induction l with
  | nil => intro _ _; simp
  | cons a rest ih =>
    intro himp hchain
    rw [List.chain'_cons'] at hchain ⊢
    refine ⟨?_, ?_⟩
    · intro b hb
      exact himp a (List.mem_cons_self _ _) b
        (List.mem_cons_of_mem _ (List.mem_of_mem_head? hb))
        (hchain.1 b hb)
    · exact ih (fun x hx y hy => himp x (List.mem_cons_of_mem _ hx) y
        (List.mem_cons_of_mem _ hy)) hchain.2

/-- With distinct keys, membership determines the lookup. -/
theorem mapGet_of_mem_nodup {m : List (K × CriticalPathNode K V)}
    (hnd : (m.map Prod.fst).Nodup) {k : K} {n : CriticalPathNode K V}
    (hmem : (k, n) ∈ m) : mapGet m k = some n := by
  induction m with
  | nil => cases hmem
  | cons p rest ih =>
    rcases List.mem_cons.mp hmem with rfl | hmem'
    · simp [mapGet]
    · have hk : ¬ p.1 = k := by
        intro hc
        have : k ∈ rest.map Prod.fst :=
          List.mem_map.mpr ⟨(k, n), hmem', rfl⟩
        rw [List.map_cons] at hnd
        exact (List.nodup_cons.mp hnd).1 (hc ▸ this)
      have := ih (by rw [List.map_cons] at hnd; exact (List.nodup_cons.mp hnd).2)
        hmem'
      simpa [mapGet, hk] using this

/-- C5: for every predecessor map with distinct keys,
`extract_critical_path` returns the empty path on an empty map; the
returned path is prev-linked with each entry's duration after the first
being the saturating difference of its cumulative duration and its
predecessor's cumulative duration; on a nonempty map the path is nonempty
and ends at a node of maximal cumulative duration; when the cumulative
durations are nondecreasing along the path the sum of entry durations
equals the terminal's cumulative duration; and whenever the returned path
is no longer than the map (always the case for the acyclic maps the
backend builds), its first entry is a root whose `prev` is `none` or
absent from the map. -/
theorem extract_critical_path_spec (m : List (K × CriticalPathNode K V))
    (hnd : (m.map Prod.fst).Nodup) :
    (m = [] → extract_critical_path m = []) ∧
    List.Chain' (DeltaAdj m) (extract_critical_path m) ∧
    (m ≠ [] → ∃ e nT, (extract_critical_path m).getLast? = some e ∧
      mapGet m e.1 = some nT ∧
      (∀ p ∈ m, p.2.duration ≤ nT.duration) ∧
      (List.Chain' (MapLe m) (extract_critical_path m) →
        ((extract_critical_path m).map (fun q => q.2.2)).sum = nT.duration)) ∧
    ((extract_critical_path m).length ≤ m.length →
      ∀ e₀, (extract_critical_path m).head? = some e₀ →
        ∃ n₀, mapGet m e₀.1 = some n₀ ∧
          ∀ p, n₀.prev = some p → mapGet m p = none) := by
  refine ⟨?_, ?_, ?_, ?_⟩
  · intro h
    subst h
    rfl
  · unfold extract_critical_path
    refine diffAdjacent_chain m _ ?_ ?_
    · intro e he
      exact cpWalk_sound m _ _ e (List.mem_reverse.mp he)
    · exact List.chain'_reverse.mpr (cpWalk_chain m _ _)
  · intro hne
    cases hmaxv : maxByKeyLast (fun p => p.2.duration) m with
    | none =>
      cases m with
      | nil => exact absurd rfl hne
      | cons a as => exact absurd hmaxv (maxByKeyLast_cons_ne_none _ a as)
    | some t =>
      obtain ⟨kT, nT⟩ := t
      have hmem := (maxByKeyLast_mem_le _ m _ hmaxv).1
      have hbound := (maxByKeyLast_mem_le _ m _ hmaxv).2
      have hget : mapGet m kT = some nT := mapGet_of_mem_nodup hnd hmem
      have hr : extract_critical_path m =
          diffAdjacent (cpWalk m (m.length + 1) (some kT)).reverse := by
        unfold extract_critical_path
        rw [hmaxv]
        rfl
      have hwalk : cpWalk m (m.length + 1) (some kT) =
          (kT, nT.value, nT.duration) :: cpWalk m m.length nT.prev := by
        rw [cpWalk, hget]
      have hrlen : (extract_critical_path m).length =
          (cpWalk m (m.length + 1) (some kT)).length := by
        rw [hr, diffAdjacent_length, List.length_reverse]
      have hrne : extract_critical_path m ≠ [] := by
        intro hc
        rw [hc, hwalk] at hrlen
        simp at hrlen
      obtain ⟨e, hlast⟩ : ∃ e, (extract_critical_path m).getLast? = some e := by
        cases hl : (extract_critical_path m).getLast? with
        | some e => exact ⟨e, rfl⟩
        | none =>
          cases hcase : extract_critical_path m with
          | nil => exact absurd hcase hrne
          | cons x xs =>
            rw [hcase] at hl
            rw [List.getLast?_eq_getLast _ (by simp)] at hl
            cases hl
      have hkey : e.1 = kT := by
        have h1 : ((extract_critical_path m).map (fun q => q.1)).getLast? =
            some e.1 := by
          rw [list_getLast?_map, hlast]
          rfl
        rw [hr, diffAdjacent_map_fst, List.map_reverse,
          List.getLast?_reverse, hwalk] at h1
        simpa using h1.symm
      refine ⟨e, nT, hlast, by rw [hkey]; exact hget,
        fun p hp => hbound p hp, ?_⟩
      intro hmono
      have hmono₂ : List.Chain'
          (fun (a b : K × V × Nat) =>
            (fun x y => ∀ na nb, mapGet m x = some na →
              mapGet m y = some nb → na.duration ≤ nb.duration) a.1 b.1)
          (diffAdjacent (cpWalk m (m.length + 1) (some kT)).reverse) := by
        rw [hr] at hmono
        exact hmono
      have hmono₃ := @chain_keyR_diffAdjacent K V _
        (fun x y => ∀ na nb, mapGet m x = some na →
          mapGet m y = some nb → na.duration ≤ nb.duration) _ hmono₂
      have hle : List.Chain' (fun (a b : K × V × Nat) => a.2.2 ≤ b.2.2)
          (cpWalk m (m.length + 1) (some kT)).reverse := by
        refine chain'_imp_mem _ ?_ hmono₃
        intro a ha b hb hab
        rcases cpWalk_sound m _ _ a (List.mem_reverse.mp ha) with
          ⟨na, hna, _, hca⟩
        rcases cpWalk_sound m _ _ b (List.mem_reverse.mp hb) with
          ⟨nb, hnb, _, hcb⟩
        rw [hca, hcb]
        exact hab na nb hna hnb
      have hsum := diffAdjacent_sum _ hle
      rw [hr]
      rw [hsum, List.map_reverse, List.getLast?_reverse, hwalk]
      rfl
  · intro hlen e₀ he₀
    have hlen' : (cpWalk m (m.length + 1)
        ((maxByKeyLast (fun p => p.2.duration) m).map (fun q => q.1))).length <
        m.length + 1 := by
      have : (extract_critical_path m).length =
          (cpWalk m (m.length + 1)
            ((maxByKeyLast (fun p => p.2.duration) m).map
              (fun q => q.1))).length := by
        unfold extract_critical_path
        rw [diffAdjacent_length, List.length_reverse]
      omega
    have hhead : (cpWalk m (m.length + 1)
        ((maxByKeyLast (fun p => p.2.duration) m).map
          (fun q => q.1))).getLast? = some e₀ := by
      have h1 : (extract_critical_path m).head? =
          (cpWalk m (m.length + 1)
            ((maxByKeyLast (fun p => p.2.duration) m).map
              (fun q => q.1))).getLast? := by
        unfold extract_critical_path
        rw [diffAdjacent_head, List.head?_reverse]
      rw [← h1]
      exact he₀
    exact cpWalk_last_complete m (m.length + 1) _ hlen' e₀ hhead

end CriticalPathExtraction

/-- A concrete two-node predecessor map used by the witness below: a chain
`1 -> 2` with cumulative durations 5 and 11. -/
def cpWitnessMap : List (Nat × CriticalPathNode Nat Nat) :=
  [(1, { duration := 5, value := 10, prev := none }),
   (2, { duration := 11, value := 20, prev := some 1 })]

/-- Witness for C5: on `cpWitnessMap` the extracted path is prev-linked,
ends at the maximal node, sums to the terminal cumulative duration under
the nondecreasing hypothesis, and starts at a root. -/
theorem extract_critical_path_spec_witness :
    ((cpWitnessMap.map Prod.fst).Nodup) ∧
    List.Chain' (DeltaAdj cpWitnessMap) (extract_critical_path cpWitnessMap) ∧
    (cpWitnessMap ≠ [] →
      ∃ e nT, (extract_critical_path cpWitnessMap).getLast? = some e ∧
        mapGet cpWitnessMap e.1 = some nT ∧
        (∀ p ∈ cpWitnessMap, p.2.duration ≤ nT.duration) ∧
        (List.Chain' (MapLe cpWitnessMap)
            (extract_critical_path cpWitnessMap) →
          ((extract_critical_path cpWitnessMap).map
            (fun q => q.2.2)).sum = nT.duration)) ∧
    ((extract_critical_path cpWitnessMap).length ≤ cpWitnessMap.length →
      ∀ e₀, (extract_critical_path cpWitnessMap).head? = some e₀ →
        ∃ n₀, mapGet cpWitnessMap e₀.1 = some n₀ ∧
          ∀ p, n₀.prev = some p → mapGet cpWitnessMap p = none) := by
  have h := extract_critical_path_spec cpWitnessMap (by decide)
  exact ⟨by decide, h.2.1, h.2.2.1, h.2.2.2⟩

end BuildListener
